import Mathlib

/-!
# Alarm_Cond: the alarm list, `alarm_insert`, `alarm_thread` and `main`

A shallow embedding of `alarm_cond.c` (both variants of the repository) over an
explicit heap.  Alarms are heap nodes addressed by natural numbers; a pointer is
an `Option Nat` (`none` is `NULL`).  Every operation returns an `Option`: `none`
stands for a run of the C program that has no defined result (a dereference of
`NULL` or of freed memory, an invalid `free`, a scan that never ends).

`time_t` and `int` values are modelled as `Int`; no arithmetic of the program
comes near the machine bounds.

The two threads share every global under `alarm_mutex`; the alarm thread gives
the mutex up only inside `pthread_cond_wait` and `pthread_cond_timedwait`.  A
run is therefore a sequence of events, each executed in one piece: `main`
handles one input line, or the alarm thread runs from one wait to the next.
The clock value `time (NULL)` is an argument of the events that read it.

Sources: `Most Recent Update/alarm_cond.c` (the definitions without suffix) and
`Test This Jhan, if right we continue part 2/A32.2 - not working_ replacing the
alarm/alarm_cond.c` (the definitions with the suffix `_test`).
-/

namespace AlarmCond

/-- The C struct `alarm_t` (`struct alarm_tag`). -/
structure alarm_t where
  link : Option Nat
  seconds : Int
  time : Int
  Message_Number : Int
  message : String
deriving DecidableEq, Repr

/-- Where `alarm_thread` stands: it has not locked `alarm_mutex` yet (`start`),
it holds the mutex at the top of its `while (1)` body (`top`), it is blocked in
`pthread_cond_wait` (`cond_wait`), or it is blocked in `pthread_cond_timedwait`
holding the alarm it popped (`timedwait alarm`). -/
inductive Pc where
  | start
  | top
  | cond_wait
  | timedwait (alarm : Nat)
deriving DecidableEq, Repr

/-- The globals of the program, the heap of `malloc`ed alarms, the position of
the alarm thread, and two ghost fields: `signals` counts the calls of
`pthread_cond_signal (&alarm_cond)` and `output` lists the lines printed by
`alarm_thread` as `(seconds, Message_Number, message)`. -/
structure State where
  heap : Nat → Option alarm_t
  brk : Nat
  alarm_list : Option Nat
  current_alarm : Int
  temp : Option Nat
  prev : Option Nat
  remove_alarm : Option Nat
  thread_alarm : Option Nat
  pc : Pc
  signals : Nat
  output : List (Int × Int × String)

/-- The state at program start: `alarm_list = NULL`, `current_alarm = 0`, the
other global pointers are zero-initialised, nothing is allocated. -/
def init : State :=
  { heap := fun _ => none, brk := 0, alarm_list := none, current_alarm := 0,
    temp := none, prev := none, remove_alarm := none, thread_alarm := none,
    pc := Pc.start, signals := 0, output := [] }

/-- The target of the local `alarm_t **last` of `alarm_insert`: the list header
`&alarm_list` or the link field `&p->link` of a node. -/
inductive Slot where
  | header
  | link_of (p : Nat)
deriving DecidableEq, Repr

/-- The assignment `p->link = v`. -/
def set_link (p : Nat) (v : Option Nat) (s : State) : Option State :=
  match s.heap p with
  | none => none
  | some n =>
    some { s with heap := fun q => if q = p then some { n with link := v } else s.heap q }

/-- The assignment `*last = v`. -/
def store (last : Slot) (v : Option Nat) (s : State) : Option State :=
  match last with
  | Slot.header => some { s with alarm_list := v }
  | Slot.link_of p => set_link p v s

/-- The scan of `alarm_insert` (the `while (next != NULL)` loop and the
`if (next == NULL)` that follows it).  The fuel bounds the number of nodes
visited; `none` when it runs out. -/
def alarm_insert_scan : Nat → Nat → Slot → Option Nat → State → Option State
  | 0, _, _, _, _ => none
  | fuel + 1, alarm, last, next, s =>
    match next with
    | none => (store last (some alarm) s).bind (set_link alarm none)
    | some n =>
      match s.heap n, s.heap alarm with
      | some nn, some an =>
        if nn.time ≥ an.time then
          (set_link alarm (some n) s).bind (store last (some alarm))
        else alarm_insert_scan fuel alarm (Slot.link_of n) nn.link s
      | _, _ => none

/-- The end of `alarm_insert`: wake the alarm thread if it is idle or the new
alarm is earlier than the one it waits on. -/
def alarm_insert_signal (alarm : Nat) (s : State) : Option State :=
  match s.heap alarm with
  | none => none
  | some an =>
    if s.current_alarm = 0 ∨ an.time < s.current_alarm then
      some { s with current_alarm := an.time, signals := s.signals + 1 }
    else some s

/-- The function `alarm_insert` of the Most Recent Update variant (lines 48-101).
Every list of distinct allocated nodes is shorter than `brk + 1`, the fuel of
the scan. -/
def alarm_insert (alarm : Nat) (s : State) : Option State :=
  (alarm_insert_scan (s.brk + 1) alarm Slot.header s.alarm_list s).bind
    (alarm_insert_signal alarm)

/-- The function `alarm_insert` of the Test variant (lines 45-105): the same code
with `temp = alarm_list` before the scan. -/
def alarm_insert_test (alarm : Nat) (s : State) : Option State :=
  let s0 := { s with temp := s.alarm_list }
  (alarm_insert_scan (s0.brk + 1) alarm Slot.header s0.alarm_list s0).bind
    (alarm_insert_signal alarm)

/-- The call `malloc (sizeof (alarm_t))` followed by the stores that fill the
fields of the new alarm (`link` is set by `alarm_insert`). -/
def new_alarm (seconds time Message_Number : Int) (message : String) (s : State) :
    Nat × State :=
  (s.brk,
   { s with
     heap := fun q => if q = s.brk then some ⟨none, seconds, time, Message_Number, message⟩
                      else s.heap q,
     brk := s.brk + 1 })

/-- The call `free (p)`. -/
def free (p : Nat) (s : State) : Option State :=
  match s.heap p with
  | none => none
  | some _ => some { s with heap := fun q => if q = p then none else s.heap q }

/-- The nodes reached from `p` along `link`, at most `fuel` of them; `none` when
a link leads to unallocated memory or the fuel runs out. -/
def nodes_from : Nat → (Nat → Option alarm_t) → Option Nat → Option (List Nat)
  | _, _, none => some []
  | 0, _, some _ => none
  | fuel + 1, h, some p =>
    match h p with
    | none => none
    | some n => (nodes_from fuel h n.link).map (fun l => p :: l)

/-- The addresses on `alarm_list`, head first. -/
def list_nodes (s : State) : Option (List Nat) :=
  nodes_from (s.brk + 1) s.heap s.alarm_list

/-- The contents of the nodes at the addresses `l`. -/
def contents (h : Nat → Option alarm_t) (l : List Nat) : List alarm_t :=
  l.filterMap h

/-- The alarms on `alarm_list`, head first. -/
def list_alarms (s : State) : Option (List alarm_t) :=
  (list_nodes s).map (contents s.heap)

/-! ## The alarm thread -/

/-- The delivery at the end of an iteration of `alarm_thread` (`if (expired)`):
print the alarm, free it, go back to the top of the loop. -/
def deliver (alarm : Nat) (s : State) : Option State :=
  match s.heap alarm with
  | none => none
  | some an =>
    (free alarm { s with output := s.output ++ [(an.seconds, an.Message_Number, an.message)] }).map
      (fun s1 => { s1 with pc := Pc.top })

/-- Most Recent Update, `alarm_thread` from `alarm = alarm_list` on (lines
134-170, up to the wait or the delivery), `now` being
the value of `time (NULL)`: take the head, record it in `thread_alarm`, set
`temp = alarm_list`; an alarm that is not due is waited on, a due one is
delivered. -/
def alarm_thread_take (now : Int) (s : State) : Option State :=
  match s.alarm_list with
  | none => none
  | some a =>
    match s.heap a with
    | none => none
    | some an =>
      let s1 := { s with alarm_list := an.link, thread_alarm := some a, temp := an.link }
      if an.time > now then
        some { s1 with current_alarm := an.time, pc := Pc.timedwait a }
      else deliver a s1

/-- Most Recent Update, the top of the `while (1)` body of `alarm_thread` (lines
128-133): `current_alarm = 0`, then wait while the list is empty, else go on
with the head. -/
def alarm_thread_run (now : Int) (s : State) : Option State :=
  match s.pc with
  | Pc.cond_wait => none
  | Pc.timedwait _ => none
  | _ =>
    let s1 := { s with current_alarm := 0 }
    match s1.alarm_list with
    | none => some { s1 with pc := Pc.cond_wait }
    | some _ => alarm_thread_take now s1

/-- Most Recent Update, a wait of `alarm_thread` returns 0.  From
`pthread_cond_wait` the thread tests `alarm_list == NULL` again.  From
`pthread_cond_timedwait` it tests `current_alarm == alarm->time` again and, when
that fails, leaves the loop with `expired == 0` and puts the held alarm back
unless it is `remove_alarm`. -/
def alarm_thread_wake (now : Int) (s : State) : Option State :=
  match s.pc with
  | Pc.cond_wait => if s.alarm_list = none then some s else alarm_thread_take now s
  | Pc.timedwait a =>
    match s.heap a with
    | none => none
    | some an =>
      if s.current_alarm = an.time then some s
      else
        (if some a ≠ s.remove_alarm then alarm_insert a s else some s).map
          (fun s1 => { s1 with pc := Pc.top })
  | _ => none

/-- The call `pthread_cond_timedwait` returns `ETIMEDOUT`, which it does only
once the clock has reached `cond_time.tv_sec = alarm->time`: `expired = 1`, the
held alarm is delivered. -/
def alarm_thread_timeout (now : Int) (s : State) : Option State :=
  match s.pc with
  | Pc.timedwait a =>
    match s.heap a with
    | none => none
    | some an => if an.time ≤ now then deliver a s else none
  | _ => none

/-- Test variant, `alarm_thread` from `alarm = alarm_list` on. -/
def alarm_thread_take_test (now : Int) (s : State) : Option State :=
  match s.alarm_list with
  | none => none
  | some a =>
    match s.heap a with
    | none => none
    | some an =>
      let s1 := { s with alarm_list := an.link }
      if an.time > now then
        some { s1 with current_alarm := an.time, pc := Pc.timedwait a }
      else deliver a s1

/-- Test variant, the top of the `while (1)` body of `alarm_thread`. -/
def alarm_thread_run_test (now : Int) (s : State) : Option State :=
  match s.pc with
  | Pc.cond_wait => none
  | Pc.timedwait _ => none
  | _ =>
    let s1 := { s with current_alarm := 0 }
    match s1.alarm_list with
    | none => some { s1 with pc := Pc.cond_wait }
    | some _ => alarm_thread_take_test now s1

/-- Test variant, a wait of `alarm_thread` returns 0: a held alarm whose wait
was cut short is always put back with `alarm_insert`. -/
def alarm_thread_wake_test (now : Int) (s : State) : Option State :=
  match s.pc with
  | Pc.cond_wait => if s.alarm_list = none then some s else alarm_thread_take_test now s
  | Pc.timedwait a =>
    match s.heap a with
    | none => none
    | some an =>
      if s.current_alarm = an.time then some s
      else (alarm_insert_test a s).map (fun s1 => { s1 with pc := Pc.top })
  | _ => none

/-! ## The main thread (Most Recent Update) -/

/-- What the two `sscanf` calls of `main` make of an input line. -/
inductive Command where
  | bad
  | cancel (Find_Message : Int)
  | set (seconds Message_Number : Int) (message : String)
deriving DecidableEq, Repr

/-- The search loop of `main`, `while (temp != NULL)`: it starts from the global
`temp` as it stands and stops at a node with the Message_Number `num`.  The
boolean is `sameMesNum`. -/
def main_search : Nat → Int → State → Option (State × Bool)
  | 0, _, _ => none
  | fuel + 1, num, s =>
    match s.temp with
    | none => some (s, false)
    | some t =>
      match s.heap t with
      | none => none
      | some tn =>
        if num = tn.Message_Number then some (s, true)
        else main_search fuel num { s with prev := some t, temp := tn.link }

/-- The test of `main` against the alarm held by the thread:
`if (sameMesNum == 0 && thread_alarm != NULL) if (thread_alarm->Message_Number
== alarm->Message_Number) { temp = thread_alarm; sameMesNum = 1; }`. -/
def main_check_held (num : Int) (r : State × Bool) : Option (State × Bool) :=
  match r.2, r.1.thread_alarm with
  | false, some t =>
    match r.1.heap t with
    | none => none
    | some tn =>
      if tn.Message_Number = num then some ({ r.1 with temp := some t }, true)
      else some r
  | _, _ => some r

/-- The `else` branch of `main` that replaces the alarm `temp` points to by
`alarm`.  The first case ends in `free (alarm_thread)`, the address of a
function handed to `free`, which has no defined result (the source marks it
`Core Dump Happening Here`). -/
def main_replace (alarm : Nat) (s : State) : Option State :=
  match s.temp with
  | none => none
  | some t =>
    match s.heap t with
    | none => none
    | some tn =>
      let s1 := { s with remove_alarm := some t }
      match s1.prev, tn.link with
      | none, some l =>
        (alarm_insert alarm { s1 with alarm_list := some l }).bind (fun _ => none)
      | some p, none => (set_link p none s1).bind (alarm_insert alarm)
      | some p, some l => (set_link p (some l) s1).bind (alarm_insert alarm)
      | none, none => some s1

/-- One iteration of the `while (1)` loop of `main` (lines 197-301) on a parsed
line, `now` being the value of `time (NULL)`.  The alarm is allocated before the
line is parsed: a bad line frees it, a cancel line only prints `Looking for
alarm to cancel` and leaves every global as it was, a set line fills the alarm,
searches for its Message_Number and inserts or replaces.  The iteration ends
with `prev = NULL`. -/
def main_iteration (c : Command) (now : Int) (s : State) : Option State :=
  match c with
  | Command.bad =>
    let r := new_alarm 0 0 0 "" s
    (free r.1 r.2).map (fun s1 => { s1 with prev := none })
  | Command.cancel _ =>
    let r := new_alarm 0 0 0 "" s
    some { r.2 with prev := none }
  | Command.set seconds Message_Number message =>
    let r := new_alarm seconds (now + seconds) Message_Number message s
    ((main_search (r.2.brk + 1) Message_Number r.2).bind (main_check_held Message_Number)).bind
      (fun q =>
        ((if q.2 = false then alarm_insert r.1 q.1 else main_replace r.1 q.1)).map
          (fun s1 => { s1 with prev := none }))

/-! ## Runs of the whole program (Most Recent Update) -/

/-- What can happen next: `main` handles an input line, or the alarm thread
runs from the top of its loop, or one of its waits returns. -/
inductive Event where
  | line (c : Command) (now : Int)
  | run (now : Int)
  | wake (now : Int)
  | timeout (now : Int)
deriving DecidableEq, Repr

/-- One event.  While the alarm thread holds `alarm_mutex` at the top of its loop
`main` cannot take the mutex, so no line is handled there. -/
def step (e : Event) (s : State) : Option State :=
  match e with
  | Event.line c now => if s.pc = Pc.top then none else main_iteration c now s
  | Event.run now => alarm_thread_run now s
  | Event.wake now => alarm_thread_wake now s
  | Event.timeout now => alarm_thread_timeout now s

/-- A run of the program: the events in order. -/
def exec : List Event → State → Option State
  | [], s => some s
  | e :: es, s => (step e s).bind (exec es)

/-! ## Reading the heap as a list -/

/-- The list `l` is the chain of addresses from `p` along `link`, ending in
`NULL`. -/
def chain (h : Nat → Option alarm_t) : Option Nat → List Nat → Prop
  | p, [] => p = none
  | p, a :: l => p = some a ∧ ∃ n, h a = some n ∧ chain h n.link l

/-- The deadline stored at an address (0 for unallocated memory). -/
def time_of (h : Nat → Option alarm_t) (p : Nat) : Int :=
  match h p with
  | some n => n.time
  | none => 0

/-- The list-level reading of the scan of `alarm_insert`: `a` goes right before
the first address whose deadline is at least that of `a`, else to the end. -/
def ins (h : Nat → Option alarm_t) (a : Nat) : List Nat → List Nat
  | [] => [a]
  | n :: l => if time_of h n ≥ time_of h a then a :: n :: l else n :: ins h a l

/-- An alarm without its link field. -/
def strip (n : alarm_t) : alarm_t := { n with link := none }

/-- The value read through `last`. -/
def slot_val (s : State) : Slot → Option Nat
  | Slot.header => s.alarm_list
  | Slot.link_of p => (s.heap p).bind (fun n => n.link)

/-- The state `s'` differs from `s` at most in link fields and in `alarm_list`. -/
def same_data (s s' : State) : Prop :=
  s'.brk = s.brk ∧ s'.current_alarm = s.current_alarm ∧ s'.temp = s.temp ∧
  s'.prev = s.prev ∧ s'.remove_alarm = s.remove_alarm ∧
  s'.thread_alarm = s.thread_alarm ∧ s'.pc = s.pc ∧ s'.signals = s.signals ∧
  s'.output = s.output ∧ ∀ q, (s'.heap q).map strip = (s.heap q).map strip

/-! ## Submitting a batch and draining the list -/

/-- The fields of an alarm other than `link`:
`(seconds, time, Message_Number, message)`. -/
def fields (n : alarm_t) : Int × Int × Int × String :=
  (n.seconds, n.time, n.Message_Number, n.message)

/-- Allocate the alarms with the given fields one after the other and hand each
to `alarm_insert`. -/
def insert_all : List (Int × Int × Int × String) → State → Option State
  | [], s => some s
  | x :: xs, s =>
    let r := new_alarm x.1 x.2.1 x.2.2.1 x.2.2.2 s
    (alarm_insert r.1 r.2).bind (insert_all xs)

/-- The two statements by which `alarm_thread` removes the head:
`alarm = alarm_list; alarm_list = alarm->link;`. -/
def take_head (s : State) : Option (alarm_t × State) :=
  match s.alarm_list with
  | none => none
  | some a =>
    match s.heap a with
    | none => none
    | some an => some (an, { s with alarm_list := an.link })

/-- Remove the head as `alarm_thread` does until `alarm_list == NULL`; the
alarms in the order they were taken. -/
def take_all : Nat → State → Option (List alarm_t)
  | 0, s => if s.alarm_list = none then some [] else none
  | fuel + 1, s =>
    if s.alarm_list = none then some []
    else (take_head s).bind (fun r => (take_all fuel r.2).map (fun out => r.1 :: out))

/-! ## Sample states -/

/-- A state with the alarm at address 0 (deadline 10) on the list and a second
alarm at address 1 (deadline 5) allocated but not yet inserted. -/
def sample_one : State :=
  { init with
    heap := fun q =>
      if q = 0 then some ⟨none, 10, 10, 1, "a"⟩
      else if q = 1 then some ⟨none, 5, 5, 2, "b"⟩ else none,
    brk := 2, alarm_list := some 0, current_alarm := 10 }

/-- A state with an empty list and two allocated alarms of equal deadline 5:
address 0 (Message_Number 1) and address 1 (Message_Number 2). -/
def sample_tie : State :=
  { init with
    heap := fun q =>
      if q = 0 then some ⟨none, 5, 5, 1, "first"⟩
      else if q = 1 then some ⟨none, 5, 5, 2, "second"⟩ else none,
    brk := 2 }

/-- Three submissions `(seconds, time, Message_Number, message)` out of deadline
order. -/
def sample_batch : List (Int × Int × Int × String) :=
  [(30, 30, 1, "c"), (10, 10, 2, "a"), (20, 20, 3, "b")]

/-- What the wake-on-earlier protocol promises about the state `s3` reached from
`s`, where the thread held `x` and `y` (with the fields `yn`) was inserted: `x`
is back on the list, which is `l` with `x` inserted and sorted by `time`, and
`y` is the alarm the thread took: it waits on it when `y` is not due at `now`,
and has printed it when it is. -/
def wake_on_earlier_outcome (s s3 : State) (x y : Nat) (yn : alarm_t) (l : List Nat)
    (now : Int) : Prop :=
  list_nodes s3 = some (ins s.heap x l) ∧ x ∈ ins s.heap x l ∧
  ((ins s.heap x l).map (time_of s3.heap)).Sorted (· ≤ ·) ∧
  (yn.time > now → s3.pc = Pc.timedwait y ∧ s3.current_alarm = yn.time ∧
    s3.output = s.output) ∧
  (yn.time ≤ now → s3.pc = Pc.top ∧
    s3.output = s.output ++ [(yn.seconds, yn.Message_Number, yn.message)])

/-- The alarm thread waits on the alarm at address 0 (deadline 100); the list
holds the alarm at address 1 (deadline 200); the alarm at address 2 (deadline
50) is allocated and not yet inserted. -/
def sample_waiting : State :=
  { init with
    heap := fun q =>
      if q = 0 then some ⟨none, 100, 100, 1, "x"⟩
      else if q = 1 then some ⟨none, 200, 200, 3, "b"⟩
      else if q = 2 then some ⟨none, 50, 50, 2, "y"⟩ else none,
    brk := 3, alarm_list := some 1, current_alarm := 100, thread_alarm := some 0,
    pc := Pc.timedwait 0 }

/-- The Message_Number, deadline and message fields of the alarms on
`alarm_list`, head first, as `(seconds, time, Message_Number, message)`. -/
def list_fields (s : State) : Option (List (Int × Int × Int × String)) :=
  (list_alarms s).map (fun l => l.map fields)

/-! ## The wake protocol -/

/-- The minimum of `t` and the deadlines `ts`. -/
def least (t : Int) (ts : List Int) : Int :=
  ts.foldr min t

/-- A sorted list of two alarms, address 0 (deadline 100) before address 1
(deadline 200), the alarm thread about to take the head. -/
def sample_sorted : State :=
  { init with
    heap := fun q =>
      if q = 0 then some ⟨some 1, 100, 100, 1, "x"⟩
      else if q = 1 then some ⟨none, 200, 200, 2, "b"⟩ else none,
    brk := 2, alarm_list := some 0, pc := Pc.top }

/-- Three later submissions `(seconds, time, Message_Number, message)`: one
after the held deadline 100, then two before it. -/
def sample_inserts : List (Int × Int × Int × String) :=
  [(150, 150, 3, "c"), (50, 50, 4, "d"), (70, 70, 5, "e")]
/-! ## Chains of links -/

theorem chain_of_nodes_from : ∀ (fuel : Nat) (h : Nat → Option alarm_t) (p : Option Nat)
    (l : List Nat), nodes_from fuel h p = some l → chain h p l := by
  intro fuel
  induction fuel with
  | zero =>
    intro h p l hl
    cases p with
    | none => simp [nodes_from] at hl; subst hl; simp [chain]
    | some a => simp [nodes_from] at hl
  | succ fuel ih =>
    intro h p l hl
    cases p with
    | none => simp [nodes_from] at hl; subst hl; simp [chain]
    | some a =>
      simp only [nodes_from] at hl
      cases hn : h a with
      | none => simp [hn] at hl
      | some n =>
        simp only [hn, Option.map_eq_some'] at hl
        obtain ⟨l', hl', rfl⟩ := hl
        exact ⟨rfl, n, hn, ih h n.link l' hl'⟩

theorem nodes_from_of_chain : ∀ (l : List Nat) (fuel : Nat) (h : Nat → Option alarm_t)
    (p : Option Nat), chain h p l → l.length ≤ fuel → nodes_from fuel h p = some l := by
  intro l
  induction l with
  | nil =>
    intro fuel h p hc _
    simp only [chain] at hc
    subst hc
    cases fuel <;> simp [nodes_from]
  | cons a l ih =>
    intro fuel h p hc hlen
    obtain ⟨rfl, n, hn, hc'⟩ := hc
    cases fuel with
    | zero => simp at hlen
    | succ fuel =>
      simp only [nodes_from, hn]
      rw [ih fuel h n.link hc' (by simpa using hlen)]
      rfl

theorem chain_congr {h h' : Nat → Option alarm_t} : ∀ (l : List Nat) (p : Option Nat),
    (∀ q ∈ l, h' q = h q) → chain h p l → chain h' p l := by
  intro l
  induction l with
  | nil => intro p _ hc; exact hc
  | cons a l ih =>
    intro p hq hc
    obtain ⟨rfl, n, hn, hc'⟩ := hc
    refine ⟨rfl, n, ?_, ih n.link (fun q hq' => hq q (List.mem_cons_of_mem _ hq')) hc'⟩
    rw [hq a (List.mem_cons_self _ _)]; exact hn

theorem chain_functional {h : Nat → Option alarm_t} : ∀ (l1 l2 : List Nat) (p : Option Nat),
    chain h p l1 → chain h p l2 → l1 = l2 := by
  intro l1
  induction l1 with
  | nil =>
    intro l2 p h1 h2
    simp only [chain] at h1
    subst h1
    cases l2 with
    | nil => rfl
    | cons b l2 => simp [chain] at h2
  | cons a l1 ih =>
    intro l2 p h1 h2
    obtain ⟨rfl, n, hn, hc⟩ := h1
    cases l2 with
    | nil => simp [chain] at h2
    | cons b l2 =>
      obtain ⟨hb, m, hm, hc2⟩ := h2
      cases hb
      rw [hn] at hm
      cases hm
      rw [ih l2 n.link hc hc2]

theorem chain_suffix {h : Nat → Option alarm_t} : ∀ (l1 l2 : List Nat) (p : Option Nat),
    chain h p (l1 ++ l2) → ∃ q, chain h q l2 := by
  intro l1
  induction l1 with
  | nil => intro l2 p hc; exact ⟨p, hc⟩
  | cons a l1 ih =>
    intro l2 p hc
    obtain ⟨_, n, _, hc'⟩ := hc
    exact ih l2 n.link hc'

theorem chain_nodup {h : Nat → Option alarm_t} : ∀ (l : List Nat) (p : Option Nat),
    chain h p l → l.Nodup := by
  intro l
  induction l with
  | nil => intro _ _; exact List.nodup_nil
  | cons a l ih =>
    intro p hc
    obtain ⟨rfl, n, hn, hc'⟩ := hc
    refine List.nodup_cons.mpr ⟨?_, ih n.link hc'⟩
    intro hmem
    obtain ⟨l1, l2, rfl⟩ := List.append_of_mem hmem
    obtain ⟨q, hq⟩ := chain_suffix l1 (a :: l2) n.link hc'
    obtain ⟨_, m, hm, hq'⟩ := hq
    rw [hn] at hm
    cases hm
    have := chain_functional _ _ _ hc' hq'
    have hlen := congrArg List.length this
    simp at hlen
    omega
theorem set_link_eq {p : Nat} {v : Option Nat} {s : State} {n : alarm_t}
    (h : s.heap p = some n) :
    set_link p v s =
      some { s with heap := fun q => if q = p then some { n with link := v } else s.heap q } := by
  simp [set_link, h]

theorem scan_spec (a : Nat) (an : alarm_t) : ∀ (l : List Nat) (fuel : Nat) (last : Slot)
    (next : Option Nat) (s : State),
    chain s.heap next l → s.heap a = some an → a ∉ l → l.Nodup → l.length < fuel →
    slot_val s last = next →
    (∀ p, last = Slot.link_of p → p ≠ a ∧ p ∉ l ∧ ∃ pn, s.heap p = some pn) →
    ∃ s', alarm_insert_scan fuel a last next s = some s' ∧ same_data s s' ∧
      (∀ q, q ≠ a → last ≠ Slot.link_of q → q ∉ l → s'.heap q = s.heap q) ∧
      (last ≠ Slot.header → s'.alarm_list = s.alarm_list) ∧
      chain s'.heap (slot_val s' last) (ins s.heap a l) := by
  intro l
  induction l with
  | nil =>
    intro fuel last next s hc ha _ _ hlen _ hslot
    simp only [chain] at hc
    subst hc
    obtain ⟨f, rfl⟩ : ∃ f, fuel = f + 1 := ⟨fuel - 1, by simp at hlen; omega⟩
    cases last with
    | header =>
      refine ⟨_, by simp only [alarm_insert_scan, store, Option.some_bind]; exact set_link_eq ha,
        ?_, ?_, ?_, ?_⟩
      · refine ⟨rfl, rfl, rfl, rfl, rfl, rfl, rfl, rfl, rfl, ?_⟩
        intro q
        by_cases hq : q = a
        · subst hq; simp [ha, strip]
        · simp [hq]
      · intro q hq _ _; simp [hq]
      · intro h; exact absurd rfl h
      · simp [slot_val, ins, chain]
    | link_of p =>
      obtain ⟨hpa, _, pn, hp⟩ := hslot p rfl
      have ha1 : ({ s with heap := fun q => if q = p then some { pn with link := some a } else s.heap q } : State).heap a = some an := by
        simp [Ne.symm hpa, ha]
      refine ⟨_, by
        simp only [alarm_insert_scan, store, set_link_eq hp, Option.some_bind]
        exact set_link_eq ha1, ?_, ?_, ?_, ?_⟩
      · refine ⟨rfl, rfl, rfl, rfl, rfl, rfl, rfl, rfl, rfl, ?_⟩
        intro q
        by_cases hq : q = a
        · subst hq; simp [ha, strip]
        · by_cases hqp : q = p
          · subst hqp; simp [hq, hp, strip]
          · simp [hq, hqp]
      · intro q hq hqp _
        have : q ≠ p := fun h => hqp (by rw [h])
        simp [hq, this]
      · intro _; rfl
      · simp [slot_val, ins, chain, hpa]
  | cons n l ih =>
    intro fuel last next s hc ha hal hnd hlen hsv hslot
    obtain ⟨rfl, nn, hn, hc'⟩ := hc
    obtain ⟨f, rfl⟩ : ∃ f, fuel = f + 1 := ⟨fuel - 1, by simp at hlen; omega⟩
    have han : a ≠ n := fun h => hal (by simp [h])
    have hal' : a ∉ l := fun h => hal (List.mem_cons_of_mem _ h)
    have hnl : n ∉ l := (List.nodup_cons.mp hnd).1
    by_cases ht : nn.time ≥ an.time
    · have hins : ins s.heap a (n :: l) = a :: n :: l := by
        simp [ins, time_of, hn, ha, ht]
      rw [hins]
      cases last with
      | header =>
        refine ⟨_, by
          simp only [alarm_insert_scan, hn, ha, ht, if_true, set_link_eq ha, store,
            Option.some_bind]
          rfl, ?_, ?_, ?_, ?_⟩
        · refine ⟨rfl, rfl, rfl, rfl, rfl, rfl, rfl, rfl, rfl, ?_⟩
          intro q
          by_cases hq : q = a
          · subst hq; simp [ha, strip]
          · simp [hq]
        · intro q hq _ _; simp [hq]
        · intro h; exact absurd rfl h
        · refine ⟨rfl, { an with link := some n }, by simp, ?_⟩
          refine chain_congr (n :: l) _ ?_ ⟨rfl, nn, hn, hc'⟩
          intro q hq
          have : q ≠ a := fun h => hal (h ▸ hq)
          simp [this]
      | link_of p =>
        obtain ⟨hpa, hpl, pn, hp⟩ := hslot p rfl
        have hp1 : ({ s with heap := fun q => if q = a then some { an with link := some n } else s.heap q } : State).heap p = some pn := by
          simp [hpa, hp]
        refine ⟨_, by
          simp only [alarm_insert_scan, hn, ha, ht, if_true, set_link_eq ha, store,
            Option.some_bind]
          exact set_link_eq hp1, ?_, ?_, ?_, ?_⟩
        · refine ⟨rfl, rfl, rfl, rfl, rfl, rfl, rfl, rfl, rfl, ?_⟩
          intro q
          by_cases hq : q = a
          · subst hq; simp [ha, strip, Ne.symm hpa]
          · by_cases hqp : q = p
            · subst hqp; simp [hp, strip]
            · simp [hq, hqp]
        · intro q hq hqp _
          have : q ≠ p := fun h => hqp (by rw [h])
          simp [hq, this]
        · intro _; rfl
        · refine ⟨by simp [slot_val], { an with link := some n }, by simp [Ne.symm hpa], ?_⟩
          refine chain_congr (n :: l) _ ?_ ⟨rfl, nn, hn, hc'⟩
          intro q hq
          have h1 : q ≠ a := fun h => hal (h ▸ hq)
          have h2 : q ≠ p := fun h => hpl (h ▸ hq)
          simp [h1, h2]
    · have hins : ins s.heap a (n :: l) = n :: ins s.heap a l := by
        simp [ins, time_of, hn, ha, ht]
      rw [hins]
      obtain ⟨s', hs', hsd, hfr, hal2, hch⟩ := ih f (Slot.link_of n) nn.link s hc' ha hal'
        (List.nodup_cons.mp hnd).2 (by simp at hlen; omega) (by simp [slot_val, hn])
        (by
          intro p hp
          cases hp
          exact ⟨Ne.symm han, hnl, nn, hn⟩)
      have hlist : s'.alarm_list = s.alarm_list := hal2 (by simp)
      refine ⟨s', by simp only [alarm_insert_scan, hn, ha, ht, if_false]; exact hs', hsd,
        ?_, fun _ => hlist, ?_⟩
      · intro q hq hqp hql
        refine hfr q hq ?_ (fun h => hql (List.mem_cons_of_mem _ h))
        intro h
        cases h
        exact hql (List.mem_cons_self _ _)
      · have hstrip := hsd.2.2.2.2.2.2.2.2.2 n
        rw [hn] at hstrip
        obtain ⟨n', hn'⟩ : ∃ n', s'.heap n = some n' := by
          cases h : s'.heap n with
          | none => simp [h] at hstrip
          | some n' => exact ⟨n', rfl⟩
        refine ⟨?_, n', hn', ?_⟩
        · cases last with
          | header => simpa [slot_val, hlist] using hsv
          | link_of p =>
            obtain ⟨hpa, hpl, pn, hp⟩ := hslot p rfl
            have hpn : p ≠ n := fun h => hpl (by simp [h])
            have : s'.heap p = s.heap p :=
              hfr p hpa (by simp [Ne.symm hpn]) (fun h => hpl (List.mem_cons_of_mem _ h))
            simpa [slot_val, this] using hsv
        · simpa [slot_val, hn'] using hch

/-! ## The list-level reading of the scan -/

theorem ins_eq_takeWhile (h : Nat → Option alarm_t) (a : Nat) : ∀ l : List Nat,
    ins h a l = l.takeWhile (fun p => decide (time_of h p < time_of h a)) ++
      a :: l.dropWhile (fun p => decide (time_of h p < time_of h a)) := by
  intro l
  induction l with
  | nil => rfl
  | cons n l ih =>
    by_cases ht : time_of h n ≥ time_of h a
    · have : ¬ time_of h n < time_of h a := not_lt.mpr ht
      simp [ins, ht, List.takeWhile, List.dropWhile, this]
    · have : time_of h n < time_of h a := not_le.mp ht
      simp [ins, ht, List.takeWhile, List.dropWhile, this, ih]

theorem ins_perm (h : Nat → Option alarm_t) (a : Nat) : ∀ l : List Nat,
    (ins h a l).Perm (a :: l) := by
  intro l
  induction l with
  | nil => exact List.Perm.refl _
  | cons n l ih =>
    by_cases ht : time_of h n ≥ time_of h a
    · simp [ins, ht]
    · simp only [ins, ht, if_false]
      exact (List.Perm.cons n ih).trans (List.Perm.swap a n l)

theorem ins_sorted (h : Nat → Option alarm_t) (a : Nat) : ∀ l : List Nat,
    (l.map (time_of h)).Sorted (· ≤ ·) → ((ins h a l).map (time_of h)).Sorted (· ≤ ·) := by
  intro l
  induction l with
  | nil => intro _; simp [ins]
  | cons n l ih =>
    intro hs
    simp only [List.map_cons, List.sorted_cons] at hs
    by_cases ht : time_of h n ≥ time_of h a
    · simp only [ins, ht, if_true, List.map_cons, List.sorted_cons]
      refine ⟨?_, ?_, hs.2⟩
      · intro b hb
        rcases List.mem_cons.mp hb with rfl | hb
        · exact ht
        · exact le_trans ht (hs.1 b hb)
      · exact hs.1
    · simp only [ins, ht, if_false, List.map_cons, List.sorted_cons]
      refine ⟨?_, ih hs.2⟩
      intro b hb
      have hb' : b ∈ (a :: l).map (time_of h) :=
        ((ins_perm h a l).map (time_of h)).subset hb
      rw [List.map_cons] at hb'
      rcases List.mem_cons.mp hb' with rfl | hb2
      · exact le_of_lt (not_le.mp ht)
      · exact hs.1 b hb2

theorem time_of_same {h h' : Nat → Option alarm_t}
    (hd : ∀ q, (h' q).map strip = (h q).map strip) (q : Nat) : time_of h' q = time_of h q := by
  have := hd q
  unfold time_of
  cases h1 : h' q <;> cases h2 : h q <;> simp [h1, h2, strip] at this ⊢
  exact this.2.1

theorem length_le_of_lt {l : List Nat} {b : Nat} (hnd : l.Nodup) (hb : ∀ p ∈ l, p < b) :
    l.length ≤ b := by
  have hsub : l ⊆ List.range b := fun p hp => List.mem_range.mpr (hb p hp)
  simpa using (List.subperm_of_subset hnd hsub).length_le

/-- What `alarm_insert_scan` does from the list header on a well-formed list. -/
theorem scan_header (s : State) (a : Nat) (an : alarm_t) (l : List Nat)
    (hl : list_nodes s = some l) (hb : ∀ p ∈ l, p < s.brk) (ha : s.heap a = some an)
    (hal : a ∉ l) :
    ∃ s', alarm_insert_scan (s.brk + 1) a Slot.header s.alarm_list s = some s' ∧
      same_data s s' ∧ s'.heap a ≠ none ∧ list_nodes s' = some (ins s.heap a l) := by
  have hc := chain_of_nodes_from _ _ _ _ hl
  have hnd := chain_nodup _ _ hc
  have hlen := length_le_of_lt hnd hb
  obtain ⟨s', hs', hsd, _, _, hch⟩ := scan_spec a an l (s.brk + 1) Slot.header s.alarm_list s
    hc ha hal hnd (by omega) rfl (by intro p hp; cases hp)
  refine ⟨s', hs', hsd, ?_, ?_⟩
  · have := hsd.2.2.2.2.2.2.2.2.2 a
    rw [ha] at this
    intro h0
    simp [h0] at this
  · unfold list_nodes
    rw [hsd.1]
    refine nodes_from_of_chain _ _ _ _ hch ?_
    have := (ins_perm s.heap a l).length_eq
    simp at this
    omega

theorem alarm_insert_test_eq (a : Nat) (s : State) :
    alarm_insert_test a s = alarm_insert a { s with temp := s.alarm_list } := rfl

/-- The whole of `alarm_insert` on a well-formed list: the scan leaves the list
`ins s.heap a l`, and the signalling test then decides on `current_alarm` and
the signal. -/
theorem alarm_insert_spec (s : State) (a : Nat) (an : alarm_t) (l : List Nat)
    (hl : list_nodes s = some l) (hb : ∀ p ∈ l, p < s.brk) (ha : s.heap a = some an)
    (hal : a ∉ l) :
    ∃ s1, same_data s s1 ∧ list_nodes s1 = some (ins s.heap a l) ∧
      alarm_insert a s = some
        (if s.current_alarm = 0 ∨ an.time < s.current_alarm then
          { s1 with current_alarm := an.time, signals := s.signals + 1 }
        else s1) := by
  obtain ⟨s1, hs1, hsd, _, hl1⟩ := scan_header s a an l hl hb ha hal
  refine ⟨s1, hsd, hl1, ?_⟩
  have hstrip := hsd.2.2.2.2.2.2.2.2.2 a
  rw [ha] at hstrip
  obtain ⟨an1, han1⟩ : ∃ an1, s1.heap a = some an1 := by
    cases h : s1.heap a with
    | none => simp [h] at hstrip
    | some n' => exact ⟨n', rfl⟩
  have htime : an1.time = an.time := by
    rw [han1] at hstrip
    simp [strip] at hstrip
    exact hstrip.2.1
  simp only [alarm_insert, hs1, Option.some_bind, alarm_insert_signal, han1, htime, hsd.2.1,
    hsd.2.2.2.2.2.2.2.1]
  split <;> rfl

/-- The list and the data of the nodes after `alarm_insert`, whatever the
signalling test decides. -/
theorem alarm_insert_list (s : State) (a : Nat) (an : alarm_t) (l : List Nat)
    (hl : list_nodes s = some l) (hb : ∀ p ∈ l, p < s.brk) (ha : s.heap a = some an)
    (hal : a ∉ l) :
    ∃ s', alarm_insert a s = some s' ∧ list_nodes s' = some (ins s.heap a l) ∧
      s'.brk = s.brk ∧ s'.temp = s.temp ∧ s'.prev = s.prev ∧
      s'.remove_alarm = s.remove_alarm ∧ s'.thread_alarm = s.thread_alarm ∧
      s'.pc = s.pc ∧ s'.output = s.output ∧
      (∀ q, (s'.heap q).map strip = (s.heap q).map strip) := by
  obtain ⟨s1, hsd, hl1, hs'⟩ := alarm_insert_spec s a an l hl hb ha hal
  obtain ⟨h1, _, h3, h4, h5, h6, h7, _, h9, h10⟩ := hsd
  refine ⟨_, hs', ?_⟩
  split
  · exact ⟨hl1, h1, h3, h4, h5, h6, h7, h9, h10⟩
  · exact ⟨hl1, h1, h3, h4, h5, h6, h7, h9, h10⟩

/-! ## Claims about `alarm_insert` -/

/-- C2: for every well-formed `alarm_list` (the nodes `l`, all allocated) sorted
in ascending order of `time` and every allocated alarm `a` not on it, the call
`alarm_insert (a)` returns and leaves a list that is again sorted in ascending
order of `time`, in the Most Recent Update variant and in the Test variant. -/
theorem C2_alarm_insert_keeps_sorted (s : State) (a : Nat) (an : alarm_t) (l : List Nat)
    (hl : list_nodes s = some l) (hb : ∀ p ∈ l, p < s.brk) (ha : s.heap a = some an)
    (hal : a ∉ l) (hs : (l.map (time_of s.heap)).Sorted (· ≤ ·)) :
    (∃ s' l', alarm_insert a s = some s' ∧ list_nodes s' = some l' ∧
      (l'.map (time_of s'.heap)).Sorted (· ≤ ·)) ∧
    (∃ s' l', alarm_insert_test a s = some s' ∧ list_nodes s' = some l' ∧
      (l'.map (time_of s'.heap)).Sorted (· ≤ ·)) := by
  constructor
  · obtain ⟨s', hs', hl', _, _, _, _, _, _, _, hd⟩ := alarm_insert_list s a an l hl hb ha hal
    refine ⟨s', _, hs', hl', ?_⟩
    have : time_of s'.heap = time_of s.heap := funext (time_of_same hd)
    rw [this]
    exact ins_sorted s.heap a l hs
  · obtain ⟨s', hs', hl', _, _, _, _, _, _, _, hd⟩ :=
      alarm_insert_list { s with temp := s.alarm_list } a an l hl hb ha hal
    refine ⟨s', _, hs', hl', ?_⟩
    have : time_of s'.heap = time_of s.heap := funext (time_of_same hd)
    rw [this]
    exact ins_sorted s.heap a l hs

theorem C2_witness :
    (∃ s' l', alarm_insert 1 sample_one = some s' ∧ list_nodes s' = some l' ∧
      (l'.map (time_of s'.heap)).Sorted (· ≤ ·)) ∧
    (∃ s' l', alarm_insert_test 1 sample_one = some s' ∧ list_nodes s' = some l' ∧
      (l'.map (time_of s'.heap)).Sorted (· ≤ ·)) :=
  C2_alarm_insert_keeps_sorted sample_one 1 ⟨none, 5, 5, 2, "b"⟩ [0] (by decide) (by decide) rfl
    (by decide) (by simp)

/-- C3: for every well-formed `alarm_list` (sorted or not) and every allocated
alarm `a` not on it, `alarm_insert (a)` returns and puts `a` right before the
first node whose `time` is at least `a->time`, or at the tail when there is
none: the new list is the nodes with a smaller `time` in front, then `a`, then
the rest.  The old nodes are all still on it in their old order, the list is
one longer, and no field other than `link` of any node has changed. -/
theorem C3_alarm_insert_position (s : State) (a : Nat) (an : alarm_t) (l : List Nat)
    (hl : list_nodes s = some l) (hb : ∀ p ∈ l, p < s.brk) (ha : s.heap a = some an)
    (hal : a ∉ l) :
    ∃ s' l', alarm_insert a s = some s' ∧ list_nodes s' = some l' ∧
      l' = l.takeWhile (fun p => decide (time_of s.heap p < an.time)) ++
        a :: l.dropWhile (fun p => decide (time_of s.heap p < an.time)) ∧
      l.Sublist l' ∧ l'.Perm (a :: l) ∧ l'.length = l.length + 1 ∧
      (∀ q, (s'.heap q).map strip = (s.heap q).map strip) := by
  obtain ⟨s', hs', hl', _, _, _, _, _, _, _, hd⟩ := alarm_insert_list s a an l hl hb ha hal
  have hta : time_of s.heap a = an.time := by simp [time_of, ha]
  have heq := ins_eq_takeWhile s.heap a l
  rw [hta] at heq
  refine ⟨s', _, hs', hl', heq, ?_, ins_perm s.heap a l, ?_, hd⟩
  · rw [heq]
    conv_lhs => rw [← List.takeWhile_append_dropWhile
      (fun p => decide (time_of s.heap p < an.time)) l]
    exact List.Sublist.append (List.Sublist.refl _) (List.sublist_cons_self _ _)
  · simpa using (ins_perm s.heap a l).length_eq

theorem C3_witness :
    ∃ s' l', alarm_insert 1 sample_one = some s' ∧ list_nodes s' = some l' ∧
      l' = [0].takeWhile (fun p => decide (time_of sample_one.heap p < 5)) ++
        1 :: [0].dropWhile (fun p => decide (time_of sample_one.heap p < 5)) ∧
      [0].Sublist l' ∧ l'.Perm (1 :: [0]) ∧ l'.length = [0].length + 1 ∧
      (∀ q, (s'.heap q).map strip = (sample_one.heap q).map strip) :=
  C3_alarm_insert_position sample_one 1 ⟨none, 5, 5, 2, "b"⟩ [0] (by decide) (by decide) rfl
    (by decide)

/-- C5: for every state with a well-formed `alarm_list` and every allocated
alarm `a` not on it, `alarm_insert (a)` returns; it signals `alarm_cond` (once)
and sets `current_alarm` to `a->time` exactly when `current_alarm` is 0 or
`a->time < current_alarm`, and in every other case it sends no signal and leaves
`current_alarm` as it was.  The same holds in the Test variant. -/
theorem C5_alarm_insert_signal_rule (s : State) (a : Nat) (an : alarm_t) (l : List Nat)
    (hl : list_nodes s = some l) (hb : ∀ p ∈ l, p < s.brk) (ha : s.heap a = some an)
    (hal : a ∉ l) :
    (∃ s', alarm_insert a s = some s' ∧
      ((s.current_alarm = 0 ∨ an.time < s.current_alarm) →
        s'.signals = s.signals + 1 ∧ s'.current_alarm = an.time) ∧
      (¬ (s.current_alarm = 0 ∨ an.time < s.current_alarm) →
        s'.signals = s.signals ∧ s'.current_alarm = s.current_alarm)) ∧
    (∃ s', alarm_insert_test a s = some s' ∧
      ((s.current_alarm = 0 ∨ an.time < s.current_alarm) →
        s'.signals = s.signals + 1 ∧ s'.current_alarm = an.time) ∧
      (¬ (s.current_alarm = 0 ∨ an.time < s.current_alarm) →
        s'.signals = s.signals ∧ s'.current_alarm = s.current_alarm)) := by
  constructor
  · obtain ⟨s1, hsd, _, hs'⟩ := alarm_insert_spec s a an l hl hb ha hal
    refine ⟨_, hs', ?_, ?_⟩
    · intro hc
      rw [if_pos hc]
      exact ⟨rfl, rfl⟩
    · intro hc
      rw [if_neg hc]
      exact ⟨hsd.2.2.2.2.2.2.2.1, hsd.2.1⟩
  · obtain ⟨s1, hsd, _, hs'⟩ :=
      alarm_insert_spec { s with temp := s.alarm_list } a an l hl hb ha hal
    refine ⟨_, hs', ?_, ?_⟩
    · intro hc
      rw [if_pos hc]
      exact ⟨rfl, rfl⟩
    · intro hc
      rw [if_neg hc]
      exact ⟨hsd.2.2.2.2.2.2.2.1, hsd.2.1⟩

theorem C5_witness :
    (∃ s', alarm_insert 1 sample_one = some s' ∧
      ((sample_one.current_alarm = 0 ∨ (5 : Int) < sample_one.current_alarm) →
        s'.signals = sample_one.signals + 1 ∧ s'.current_alarm = 5) ∧
      (¬ (sample_one.current_alarm = 0 ∨ (5 : Int) < sample_one.current_alarm) →
        s'.signals = sample_one.signals ∧ s'.current_alarm = sample_one.current_alarm)) ∧
    (∃ s', alarm_insert_test 1 sample_one = some s' ∧
      ((sample_one.current_alarm = 0 ∨ (5 : Int) < sample_one.current_alarm) →
        s'.signals = sample_one.signals + 1 ∧ s'.current_alarm = 5) ∧
      (¬ (sample_one.current_alarm = 0 ∨ (5 : Int) < sample_one.current_alarm) →
        s'.signals = sample_one.signals ∧ s'.current_alarm = sample_one.current_alarm)) :=
  C5_alarm_insert_signal_rule sample_one 1 ⟨none, 5, 5, 2, "b"⟩ [0] (by decide) (by decide) rfl
    (by decide)

theorem ins_append_of_lt (h : Nat → Option alarm_t) (b : Nat) : ∀ (pre rest : List Nat),
    (∀ p ∈ pre, time_of h p < time_of h b) → ins h b (pre ++ rest) = pre ++ ins h b rest := by
  intro pre
  induction pre with
  | nil => intro rest _; rfl
  | cons p pre ih =>
    intro rest hp
    have h1 : ¬ time_of h p ≥ time_of h b := not_le.mpr (hp p (List.mem_cons_self _ _))
    simp only [List.cons_append, ins, h1, if_false]
    exact congrArg (fun t => p :: t) (ih rest (fun q hq => hp q (List.mem_cons_of_mem _ hq)))

theorem ins_congr {h h' : Nat → Option alarm_t} (ht : ∀ q, time_of h' q = time_of h q)
    (b : Nat) : ∀ l : List Nat, ins h' b l = ins h b l := by
  intro l
  induction l with
  | nil => rfl
  | cons n l ih => simp only [ins, ht, ih]

theorem heap_some_of_same {h h' : Nat → Option alarm_t}
    (hd : ∀ q, (h' q).map strip = (h q).map strip) {q : Nat} {n : alarm_t}
    (hq : h q = some n) : ∃ n', h' q = some n' ∧ strip n' = strip n := by
  have := hd q
  rw [hq] at this
  cases h1 : h' q with
  | none => simp [h1] at this
  | some n' => exact ⟨n', rfl, by simpa [h1] using this⟩

/-- C4 as the code has it: for every well-formed `alarm_list` and two allocated
alarms `a`, `b` of equal `time`, neither on the list, inserted by two
successive `alarm_insert` calls (`a` first), both calls return and the alarm
inserted second stands immediately before the alarm inserted first: the test
`next->time >= alarm->time` stops the scan at the first node of equal time. -/
theorem C4_equal_time_second_before_first (s : State) (a b : Nat) (an bn : alarm_t)
    (l : List Nat) (hl : list_nodes s = some l) (hb : ∀ p ∈ l, p < s.brk)
    (ha : s.heap a = some an) (hbn : s.heap b = some bn) (hab : a ≠ b) (habrk : a < s.brk)
    (hal : a ∉ l) (hbl : b ∉ l) (ht : an.time = bn.time) :
    ∃ s1 s2 front back, alarm_insert a s = some s1 ∧ alarm_insert b s1 = some s2 ∧
      list_nodes s1 = some (front ++ a :: back) ∧
      list_nodes s2 = some (front ++ b :: a :: back) := by
  obtain ⟨s1, hs1, hl1, hbrk1, _, _, _, _, _, _, hd1⟩ :=
    alarm_insert_list s a an l hl hb ha hal
  obtain ⟨bn1, hbn1, _⟩ := heap_some_of_same hd1 hbn
  have hperm := ins_perm s.heap a l
  have hb1 : ∀ p ∈ ins s.heap a l, p < s1.brk := by
    intro p hp
    rw [hbrk1]
    rcases List.mem_cons.mp (hperm.subset hp) with rfl | hp
    · exact habrk
    · exact hb p hp
  have hbl1 : b ∉ ins s.heap a l := by
    intro hp
    rcases List.mem_cons.mp (hperm.subset hp) with h | hp
    · exact hab h.symm
    · exact hbl hp
  obtain ⟨s2, hs2, hl2, _⟩ := alarm_insert_list s1 b bn1 _ hl1 hb1 hbn1 hbl1
  have hta : time_of s.heap a = an.time := by simp [time_of, ha]
  have htb : time_of s.heap b = bn.time := by simp [time_of, hbn]
  refine ⟨s1, s2, l.takeWhile (fun p => decide (time_of s.heap p < time_of s.heap a)),
    l.dropWhile (fun p => decide (time_of s.heap p < time_of s.heap a)), hs1, hs2, ?_, ?_⟩
  · rw [hl1, ins_eq_takeWhile]
  · rw [hl2, ins_congr (time_of_same hd1), ins_eq_takeWhile s.heap a l, ins_append_of_lt]
    · have : time_of s.heap a ≥ time_of s.heap b := by rw [hta, htb, ht]
      simp [ins, this]
    · intro p hp
      have := List.mem_takeWhile_imp hp
      rw [hta, ht, ← htb] at this
      simpa using this

theorem C4_witness :
    ∃ s1 s2 front back, alarm_insert 0 sample_tie = some s1 ∧ alarm_insert 1 s1 = some s2 ∧
      list_nodes s1 = some (front ++ 0 :: back) ∧
      list_nodes s2 = some (front ++ 1 :: 0 :: back) :=
  C4_equal_time_second_before_first sample_tie 0 1 ⟨none, 5, 5, 1, "first"⟩
    ⟨none, 5, 5, 2, "second"⟩ [] (by decide) (by decide) rfl rfl (by decide) (by decide)
    (by decide) (by decide) rfl

/-- C4 as stated fails: two alarms of equal deadline 5 are inserted into the
empty list, address 0 first and address 1 second; the alarm inserted second is
the head of the list and the alarm inserted first follows it. -/
theorem C4_counterexample :
    time_of sample_tie.heap 0 = time_of sample_tie.heap 1 ∧
    ((alarm_insert 0 sample_tie).bind (alarm_insert 1)).bind list_nodes = some [1, 0] := by
  decide

/-! ## Ordering of a batch -/

theorem take_all_of_chain : ∀ (l : List Nat) (fuel : Nat) (s : State),
    chain s.heap s.alarm_list l → l.length ≤ fuel →
    ∃ out, take_all fuel s = some out ∧ out.map some = l.map s.heap := by
  intro l
  induction l with
  | nil =>
    intro fuel s hc _
    simp only [chain] at hc
    cases fuel <;> simp [take_all, hc]
  | cons a l ih =>
    intro fuel s hc hlen
    obtain ⟨ha, n, hn, hc'⟩ := hc
    cases fuel with
    | zero => simp at hlen
    | succ fuel =>
      obtain ⟨out, hout, hmap⟩ := ih fuel { s with alarm_list := n.link } hc'
        (by simpa using hlen)
      refine ⟨n :: out, ?_, ?_⟩
      · simp only [take_all, ha, take_head, hn, Option.some_bind, hout]
        simp
      · simpa [hn] using hmap

theorem insert_all_spec : ∀ (xs : List (Int × Int × Int × String)) (s : State) (l : List Nat),
    list_nodes s = some l → (∀ p ∈ l, p < s.brk) →
    (l.map (time_of s.heap)).Sorted (· ≤ ·) →
    ∃ s' l', insert_all xs s = some s' ∧ list_nodes s' = some l' ∧ (∀ p ∈ l', p < s'.brk) ∧
      (l'.map (time_of s'.heap)).Sorted (· ≤ ·) ∧
      (l'.map (fun p => (s'.heap p).map fields)).Perm
        (l.map (fun p => (s.heap p).map fields) ++ xs.map some) := by
  intro xs
  induction xs with
  | nil =>
    intro s l hl hb hs
    exact ⟨s, l, rfl, hl, hb, hs, by simp⟩
  | cons x xs ih =>
    intro s l hl hb hs
    obtain ⟨sec, tm, num, msg⟩ := x
    have hfresh : ∀ p ∈ l, p ≠ s.brk := fun p hp => Nat.ne_of_lt (hb p hp)
    have hc := chain_of_nodes_from _ _ _ _ hl
    have hc0 : chain (new_alarm sec tm num msg s).2.heap s.alarm_list l := by
      refine chain_congr l _ ?_ hc
      intro q hq
      simp [new_alarm, hfresh q hq]
    have hlen := length_le_of_lt (chain_nodup _ _ hc) hb
    have hl0 : list_nodes (new_alarm sec tm num msg s).2 = some l :=
      nodes_from_of_chain _ _ _ _ hc0 (by simp [new_alarm]; omega)
    have hb0 : ∀ p ∈ l, p < (new_alarm sec tm num msg s).2.brk := by
      intro p hp
      have := hb p hp
      simp [new_alarm]
      omega
    have ha0 : (new_alarm sec tm num msg s).2.heap s.brk = some ⟨none, sec, tm, num, msg⟩ := by
      simp [new_alarm]
    have hal0 : s.brk ∉ l := fun h => hfresh _ h rfl
    obtain ⟨s1, hs1, hl1, hbrk1, _, _, _, _, _, _, hd1⟩ :=
      alarm_insert_list _ s.brk _ l hl0 hb0 ha0 hal0
    have hperm := ins_perm (new_alarm sec tm num msg s).2.heap s.brk l
    have hold : ∀ q ∈ l, (new_alarm sec tm num msg s).2.heap q = s.heap q := by
      intro q hq
      simp [new_alarm, hfresh q hq]
    have hb1 : ∀ p ∈ ins (new_alarm sec tm num msg s).2.heap s.brk l, p < s1.brk := by
      intro p hp
      rw [hbrk1]
      rcases List.mem_cons.mp (hperm.subset hp) with rfl | hp
      · simp [new_alarm]
      · exact hb0 p hp
    have htime1 : time_of s1.heap = time_of (new_alarm sec tm num msg s).2.heap :=
      funext (time_of_same hd1)
    have hs0 : (l.map (time_of (new_alarm sec tm num msg s).2.heap)).Sorted (· ≤ ·) := by
      have : l.map (time_of (new_alarm sec tm num msg s).2.heap) = l.map (time_of s.heap) :=
        List.map_congr_left (fun q hq => by simp [time_of, hold q hq])
      rw [this]; exact hs
    have hs1s : ((ins (new_alarm sec tm num msg s).2.heap s.brk l).map
        (time_of s1.heap)).Sorted (· ≤ ·) := by
      rw [htime1]
      exact ins_sorted _ _ _ hs0
    obtain ⟨s', l', hs', hl', hb', hsort', hperm'⟩ := ih s1 _ hl1 hb1 hs1s
    refine ⟨s', l', ?_, hl', hb', hsort', ?_⟩
    · have h0 : (new_alarm sec tm num msg s).1 = s.brk := rfl
      simp only [insert_all, h0]
      rw [hs1]
      exact hs'
    · refine hperm'.trans ?_
      have hf1 : ∀ q, (s1.heap q).map fields = ((new_alarm sec tm num msg s).2.heap q).map fields := by
        intro q
        have := hd1 q
        cases h1 : s1.heap q <;> cases h2 : (new_alarm sec tm num msg s).2.heap q <;>
          simp [h1, h2, strip, fields] at this ⊢
        exact ⟨this.1, this.2.1, this.2.2.1, this.2.2.2⟩
      have h1 : (ins (new_alarm sec tm num msg s).2.heap s.brk l).map
          (fun p => (s1.heap p).map fields) =
          (ins (new_alarm sec tm num msg s).2.heap s.brk l).map
          (fun p => ((new_alarm sec tm num msg s).2.heap p).map fields) :=
        List.map_congr_left (fun q _ => hf1 q)
      rw [h1]
      have h2 := hperm.map (fun p => ((new_alarm sec tm num msg s).2.heap p).map fields)
      have h3 : l.map (fun p => ((new_alarm sec tm num msg s).2.heap p).map fields) =
          l.map (fun p => (s.heap p).map fields) :=
        List.map_congr_left (fun q hq => by simp only [hold q hq])
      rw [List.map_cons, h3, ha0] at h2
      refine (h2.append_right _).trans ?_
      simp only [List.map_cons, Option.map_some', fields, List.cons_append]
      exact List.perm_middle.symm

theorem perm_of_map_some {α : Type} {l1 l2 : List α} (h : (l1.map some).Perm (l2.map some)) :
    l1.Perm l2 := by
  have := h.filterMap id
  simpa [List.filterMap_map] using this

/-- C1: for every finite sequence `xs` of alarms with pairwise distinct
deadlines, allocating them and inserting them one by one with `alarm_insert`
into an empty `alarm_list`, in the order given, returns; removing the head as
`alarm_thread` does until the list is empty then returns the alarms `out`, and
`out` is a permutation of `xs` in strictly ascending order of `time`: the
submitted sequence sorted by deadline. -/
theorem C1_ordering (s : State) (xs : List (Int × Int × Int × String))
    (hempty : s.alarm_list = none) (hdist : (xs.map (fun x => x.2.1)).Nodup) :
    ∃ s' out, insert_all xs s = some s' ∧ take_all (s'.brk + 1) s' = some out ∧
      (out.map fields).Perm xs ∧ (out.map (fun n => n.time)).Sorted (· < ·) := by
  have hl : list_nodes s = some [] := by simp [list_nodes, hempty, nodes_from]
  obtain ⟨s', l', hs', hl', hb', hsort', hperm'⟩ :=
    insert_all_spec xs s [] hl (by simp) (by simp)
  have hc := chain_of_nodes_from _ _ _ _ hl'
  have hlen := length_le_of_lt (chain_nodup _ _ hc) hb'
  obtain ⟨out, hout, hmap⟩ := take_all_of_chain l' (s'.brk + 1) s' hc (by omega)
  have hfields : (out.map fields).map some = l'.map (fun p => (s'.heap p).map fields) := by
    have := congrArg (List.map (Option.map fields)) hmap
    simpa [List.map_map, Function.comp_def] using this
  have hperm : (out.map fields).Perm xs := by
    apply perm_of_map_some
    rw [hfields]
    simpa using hperm'
  have htimes : out.map (fun n => n.time) = l'.map (time_of s'.heap) := by
    have := congrArg (List.map (fun o : Option alarm_t =>
      match o with
      | some n => n.time
      | none => 0)) hmap
    simpa [List.map_map, Function.comp_def, time_of] using this
  refine ⟨s', out, hs', hout, hperm, ?_⟩
  have hle : (out.map (fun n => n.time)).Sorted (· ≤ ·) := by rw [htimes]; exact hsort'
  refine hle.lt_of_le ?_
  have h1 : (out.map (fun n => n.time)) = (out.map fields).map (fun x => x.2.1) := by
    simp [List.map_map, Function.comp_def, fields]
  rw [h1]
  exact (hperm.map _).nodup_iff.mpr hdist

theorem C1_witness :
    ∃ s' out, insert_all sample_batch init = some s' ∧
      take_all (s'.brk + 1) s' = some out ∧
      (out.map fields).Perm sample_batch ∧ (out.map (fun n => n.time)).Sorted (· < ·) :=
  C1_ordering init sample_batch rfl (by decide)

/-! ## The alarm thread on a well-formed list -/

theorem ins_head (h : Nat → Option alarm_t) (y : Nat) : ∀ l : List Nat,
    (∀ p ∈ l, time_of h y ≤ time_of h p) → ins h y l = y :: l := by
  intro l hl
  cases l with
  | nil => rfl
  | cons n l => simp [ins, hl n (List.mem_cons_self _ _)]

theorem ins_mem (h : Nat → Option alarm_t) (a : Nat) (l : List Nat) : a ∈ ins h a l :=
  (ins_perm h a l).symm.subset (List.mem_cons_self _ _)

theorem list_nodes_cons {s : State} {a : Nat} {l : List Nat}
    (hl : list_nodes s = some (a :: l)) :
    s.alarm_list = some a ∧ a ∉ l ∧ ∃ n, s.heap a = some n ∧ chain s.heap n.link l := by
  have hc := chain_of_nodes_from _ _ _ _ hl
  have hnd := chain_nodup _ _ hc
  obtain ⟨h1, n, hn, hc'⟩ := hc
  exact ⟨h1, (List.nodup_cons.mp hnd).1, n, hn, hc'⟩

/-- The statements from `alarm = alarm_list` to the wait or the delivery, on a
well-formed list with head `a` (both variants; `upd` stands for the stores to
`thread_alarm` and `temp` of the Most Recent Update variant). -/
theorem take_spec (s : State) (a : Nat) (an : alarm_t) (l : List Nat) (now : Int)
    (hl : list_nodes s = some (a :: l)) (hb : ∀ p ∈ a :: l, p < s.brk)
    (ha : s.heap a = some an) :
    (∃ s3, alarm_thread_take now s = some s3 ∧ list_nodes s3 = some l ∧ s3.brk = s.brk ∧
      (∀ q ∈ l, s3.heap q = s.heap q) ∧
      (an.time > now → s3.pc = Pc.timedwait a ∧ s3.current_alarm = an.time ∧
        s3.output = s.output) ∧
      (an.time ≤ now → s3.pc = Pc.top ∧
        s3.output = s.output ++ [(an.seconds, an.Message_Number, an.message)])) ∧
    (∃ s3, alarm_thread_take_test now s = some s3 ∧ list_nodes s3 = some l ∧ s3.brk = s.brk ∧
      (∀ q ∈ l, s3.heap q = s.heap q) ∧
      (an.time > now → s3.pc = Pc.timedwait a ∧ s3.current_alarm = an.time ∧
        s3.output = s.output) ∧
      (an.time ≤ now → s3.pc = Pc.top ∧
        s3.output = s.output ++ [(an.seconds, an.Message_Number, an.message)])) := by
  obtain ⟨hhead, hal, n, hn, hc⟩ := list_nodes_cons hl
  rw [ha] at hn
  cases hn
  have hnd := chain_nodup _ _ hc
  have hlen : l.length ≤ s.brk :=
    length_le_of_lt hnd (fun p hp => hb p (List.mem_cons_of_mem _ hp))
  have hfree : chain (fun q => if q = a then none else s.heap q) an.link l := by
    refine chain_congr l _ ?_ hc
    intro q hq
    have : q ≠ a := fun h => hal (h ▸ hq)
    simp [this]
  by_cases ht : an.time > now
  · have hle : ¬ an.time ≤ now := not_le.mpr ht
    constructor
    · simp only [alarm_thread_take, hhead, ha, ht, if_true]
      refine ⟨_, rfl, ?_, ?_, ?_, ?_, ?_⟩
      · exact nodes_from_of_chain _ _ _ _ hc (by simp; omega)
      · rfl
      · intro q _; rfl
      · intro _; exact ⟨rfl, rfl, rfl⟩
      · intro h; exact absurd h hle
    · simp only [alarm_thread_take_test, hhead, ha, ht, if_true]
      refine ⟨_, rfl, ?_, ?_, ?_, ?_, ?_⟩
      · exact nodes_from_of_chain _ _ _ _ hc (by simp; omega)
      · rfl
      · intro q _; rfl
      · intro _; exact ⟨rfl, rfl, rfl⟩
      · intro h; exact absurd h hle
  · have hle : an.time ≤ now := not_lt.mp ht
    constructor
    · simp only [alarm_thread_take, hhead, ha, ht, if_false, deliver, free, Option.map_some']
      refine ⟨_, rfl, ?_, ?_, ?_, ?_, ?_⟩
      · exact nodes_from_of_chain _ _ _ _ hfree (by simp; omega)
      · rfl
      · intro q hq
        have : q ≠ a := fun h => hal (h ▸ hq)
        simp [this]
      · intro h; exact False.elim h
      · intro _; exact ⟨rfl, rfl⟩
    · simp only [alarm_thread_take_test, hhead, ha, ht, if_false, deliver, free, Option.map_some']
      refine ⟨_, rfl, ?_, ?_, ?_, ?_, ?_⟩
      · exact nodes_from_of_chain _ _ _ _ hfree (by simp; omega)
      · rfl
      · intro q hq
        have : q ≠ a := fun h => hal (h ▸ hq)
        simp [this]
      · intro h; exact False.elim h
      · intro _; exact ⟨rfl, rfl⟩

/-- The first half of wake-on-earlier: `alarm_insert (y)` with `y` earlier than
everything on the list and than `current_alarm` puts `y` at the head, signals
and sets `current_alarm`. -/
theorem insert_earlier (s : State) (y : Nat) (yn : alarm_t) (l : List Nat)
    (hl : list_nodes s = some l) (hb : ∀ p ∈ l, p < s.brk) (hy : s.heap y = some yn)
    (hyl : y ∉ l) (hcur : yn.time < s.current_alarm)
    (hmin : ∀ p ∈ l, yn.time ≤ time_of s.heap p) :
    ∃ s1, alarm_insert y s = some s1 ∧ list_nodes s1 = some (y :: l) ∧
      s1.signals = s.signals + 1 ∧ s1.current_alarm = yn.time ∧ s1.pc = s.pc ∧
      s1.remove_alarm = s.remove_alarm ∧ s1.brk = s.brk ∧ s1.output = s.output ∧
      (∀ q, (s1.heap q).map strip = (s.heap q).map strip) := by
  obtain ⟨s0, hsd, hl0, hs1⟩ := alarm_insert_spec s y yn l hl hb hy hyl
  rw [if_pos (Or.inr hcur)] at hs1
  have hty : time_of s.heap y = yn.time := by simp [time_of, hy]
  rw [ins_head s.heap y l (by rw [hty]; exact hmin)] at hl0
  obtain ⟨h1, _, _, _, h5, _, h7, _, h9, h10⟩ := hsd
  exact ⟨_, hs1, hl0, rfl, rfl, h7, h5, h1, h9, h10⟩

/-- The second half: putting the held alarm `x` back behind the earlier `y`. -/
theorem reinsert_held (s s1 : State) (x y : Nat) (xn yn : alarm_t) (l : List Nat)
    (hl1 : list_nodes s1 = some (y :: l)) (hb : ∀ p ∈ l, p < s.brk) (hbrk : s1.brk = s.brk)
    (hd : ∀ q, (s1.heap q).map strip = (s.heap q).map strip)
    (hx : s.heap x = some xn) (hy : s.heap y = some yn) (hyb : y < s.brk)
    (hxl : x ∉ l) (hxy : y ≠ x) (hlt : yn.time < xn.time) :
    ∃ s2, alarm_insert x s1 = some s2 ∧ list_nodes s2 = some (y :: ins s.heap x l) ∧
      s2.brk = s.brk ∧ s2.output = s1.output ∧
      (∀ q, (s2.heap q).map strip = (s.heap q).map strip) := by
  obtain ⟨xn1, hx1, _⟩ := heap_some_of_same hd hx
  have hb1 : ∀ p ∈ y :: l, p < s1.brk := by
    intro p hp
    rw [hbrk]
    rcases List.mem_cons.mp hp with rfl | hp
    · exact hyb
    · exact hb p hp
  have hxl1 : x ∉ y :: l := by
    intro hp
    rcases List.mem_cons.mp hp with h | hp
    · exact hxy h.symm
    · exact hxl hp
  obtain ⟨s2, hs2, hl2, hbrk2, _, _, _, _, _, hout2, hd2⟩ :=
    alarm_insert_list s1 x xn1 (y :: l) hl1 hb1 hx1 hxl1
  refine ⟨s2, hs2, ?_, by rw [hbrk2, hbrk], hout2, fun q => (hd2 q).trans (hd q)⟩
  rw [hl2, ins_congr (time_of_same hd)]
  have hty : time_of s.heap y = yn.time := by simp [time_of, hy]
  have htx : time_of s.heap x = xn.time := by simp [time_of, hx]
  have : ¬ time_of s.heap y ≥ time_of s.heap x := by rw [hty, htx]; exact not_le.mpr hlt
  simp [ins, this]

/-- The outcome of taking `y` from the head of `y :: ins s.heap x l`. -/
theorem outcome_of_take (s s2 s3 : State) (x y : Nat) (yn yn2 : alarm_t) (l : List Nat)
    (now : Int) (hy : s.heap y = some yn) (hy2 : s2.heap y = some yn2)
    (hd : ∀ q, (s2.heap q).map strip = (s.heap q).map strip)
    (hsorted : (l.map (time_of s.heap)).Sorted (· ≤ ·))
    (hout : s2.output = s.output)
    (hl3 : list_nodes s3 = some (ins s.heap x l))
    (hheap : ∀ q ∈ ins s.heap x l, s3.heap q = s2.heap q)
    (h1 : yn2.time > now → s3.pc = Pc.timedwait y ∧ s3.current_alarm = yn2.time ∧
      s3.output = s2.output)
    (h2 : yn2.time ≤ now → s3.pc = Pc.top ∧
      s3.output = s2.output ++ [(yn2.seconds, yn2.Message_Number, yn2.message)]) :
    wake_on_earlier_outcome s s3 x y yn l now := by
  have hstrip := hd y
  rw [hy, hy2] at hstrip
  simp [strip] at hstrip
  obtain ⟨e1, e2, e3, e4⟩ := hstrip
  rw [e1, e2, e3, e4, hout] at h2
  rw [e2, hout] at h1
  refine ⟨hl3, ins_mem _ _ _, ?_, h1, h2⟩
  have : (ins s.heap x l).map (time_of s3.heap) = (ins s.heap x l).map (time_of s.heap) := by
    refine List.map_congr_left (fun q hq => ?_)
    have := time_of_same hd q
    simp only [time_of, hheap q hq] at this ⊢
    exact this
  rw [this]
  exact ins_sorted _ _ _ hsorted

/-! ## Wake-on-earlier -/

theorem alarm_thread_run_top (now : Int) (s : State) (a : Nat) (hpc : s.pc = Pc.top)
    (h : s.alarm_list = some a) :
    alarm_thread_run now s = alarm_thread_take now { s with current_alarm := 0 } := by
  unfold alarm_thread_run
  simp only [hpc, h]

theorem alarm_thread_run_test_top (now : Int) (s : State) (a : Nat) (hpc : s.pc = Pc.top)
    (h : s.alarm_list = some a) :
    alarm_thread_run_test now s = alarm_thread_take_test now { s with current_alarm := 0 } := by
  unfold alarm_thread_run_test
  simp only [hpc, h]

/-- C9 as the code has it.  The alarm thread is in its timed wait on the held
alarm `x` with `current_alarm = x->time`; the list `l` is well formed, sorted,
and holds only deadlines from `x->time` on; `y` is an allocated alarm with
`y->time < x->time`.  Then `alarm_insert (y)` returns and signals, and when the
wait returns 0 and the thread runs its next iteration (`now` being the clock
there), `y` is the alarm it takes while `x` is back on the sorted list:
in the Most Recent Update variant provided `x` is not the alarm recorded in
`remove_alarm`, in the Test variant always. -/
theorem C9_wake_on_earlier (s : State) (x y : Nat) (xn yn : alarm_t) (l : List Nat)
    (now1 now : Int)
    (hpc : s.pc = Pc.timedwait x) (hx : s.heap x = some xn) (hy : s.heap y = some yn)
    (hcur : s.current_alarm = xn.time) (hl : list_nodes s = some l)
    (hb : ∀ p ∈ l, p < s.brk) (hxb : x < s.brk) (hyb : y < s.brk)
    (hxl : x ∉ l) (hyl : y ∉ l) (hxy : y ≠ x) (hlt : yn.time < xn.time)
    (hsorted : (l.map (time_of s.heap)).Sorted (· ≤ ·))
    (hmin : ∀ p ∈ l, xn.time ≤ time_of s.heap p) :
    (s.remove_alarm ≠ some x →
      ∃ s1 s2 s3, alarm_insert y s = some s1 ∧ s1.signals = s.signals + 1 ∧
        alarm_thread_wake now1 s1 = some s2 ∧ list_nodes s2 = some (y :: ins s.heap x l) ∧
        alarm_thread_run now s2 = some s3 ∧ wake_on_earlier_outcome s s3 x y yn l now) ∧
    (∃ s1 s2 s3, alarm_insert_test y s = some s1 ∧ s1.signals = s.signals + 1 ∧
        alarm_thread_wake_test now1 s1 = some s2 ∧ list_nodes s2 = some (y :: ins s.heap x l) ∧
        alarm_thread_run_test now s2 = some s3 ∧ wake_on_earlier_outcome s s3 x y yn l now) := by
  have hmin' : ∀ p ∈ l, yn.time ≤ time_of s.heap p :=
    fun p hp => le_trans (le_of_lt hlt) (hmin p hp)
  have hb2 : ∀ p ∈ y :: ins s.heap x l, p < s.brk := by
    intro p hp
    rcases List.mem_cons.mp hp with rfl | hp
    · exact hyb
    · rcases List.mem_cons.mp ((ins_perm s.heap x l).subset hp) with rfl | hp
      · exact hxb
      · exact hb p hp
  constructor
  · intro hrm
    obtain ⟨s1, hs1, hl1, hsig, hcur1, hpc1, hrm1, hbrk1, hout1, hd1⟩ :=
      insert_earlier s y yn l hl hb hy hyl (by rw [hcur]; exact hlt) hmin'
    obtain ⟨s2, hs2, hl2, hbrk2, hout2, hd2⟩ :=
      reinsert_held s s1 x y xn yn l hl1 hb hbrk1 hd1 hx hy hyb hxl hxy hlt
    obtain ⟨xn1, hx1, hsx⟩ := heap_some_of_same hd1 hx
    have htx : xn1.time = xn.time := by
      simp [strip] at hsx
      exact hsx.2.1
    have hne : ¬ s1.current_alarm = xn1.time := by
      rw [hcur1, htx]; exact ne_of_lt hlt
    have hrm' : some x ≠ s1.remove_alarm := by
      rw [hrm1]; exact fun h => hrm h.symm
    have hwake : alarm_thread_wake now1 s1 = some { s2 with pc := Pc.top } := by
      simp only [alarm_thread_wake, hpc.symm ▸ hpc1, hx1, hne, if_false, hrm', ne_eq,
        not_false_eq_true, if_true, hs2, Option.map_some']
    obtain ⟨yn2, hy2, _⟩ := heap_some_of_same hd2 hy
    have hl2' : list_nodes { s2 with pc := Pc.top, current_alarm := 0 } =
        some (y :: ins s.heap x l) := hl2
    obtain ⟨⟨s3, hs3, hl3, _, hheap, h1, h2⟩, _⟩ :=
      take_spec { s2 with pc := Pc.top, current_alarm := 0 } y yn2 (ins s.heap x l) now hl2'
        (by intro p hp; show p < s2.brk; rw [hbrk2]; exact hb2 p hp) hy2
    have hrun : alarm_thread_run now { s2 with pc := Pc.top } = some s3 := by
      have hhead : ({ s2 with pc := Pc.top } : State).alarm_list = some y :=
        (list_nodes_cons hl2).1
      rw [alarm_thread_run_top now { s2 with pc := Pc.top } y rfl hhead]
      exact hs3
    exact ⟨s1, _, s3, hs1, hsig, hwake, hl2, hrun,
      outcome_of_take s s2 s3 x y yn yn2 l now hy hy2 hd2 hsorted (hout2.trans hout1) hl3
        hheap h1 h2⟩
  · obtain ⟨s1, hs1, hl1, hsig, hcur1, hpc1, _, hbrk1, hout1, hd1⟩ :=
      insert_earlier { s with temp := s.alarm_list } y yn l hl hb hy hyl
        (by show yn.time < s.current_alarm; rw [hcur]; exact hlt) hmin'
    obtain ⟨s2, hs2, hl2, hbrk2, hout2, hd2⟩ :=
      reinsert_held s { s1 with temp := s1.alarm_list } x y xn yn l hl1 hb hbrk1 hd1 hx hy hyb
        hxl hxy hlt
    obtain ⟨xn1, hx1, hsx⟩ := heap_some_of_same hd1 hx
    have htx : xn1.time = xn.time := by
      simp [strip] at hsx
      exact hsx.2.1
    have hne : ¬ s1.current_alarm = xn1.time := by
      rw [hcur1, htx]; exact ne_of_lt hlt
    have hpc1' : s1.pc = Pc.timedwait x := hpc1.trans hpc
    have hs2' := hs2
    simp only [hpc1'] at hs2'
    have hwake : alarm_thread_wake_test now1 s1 = some { s2 with pc := Pc.top } := by
      simp only [alarm_thread_wake_test, hpc1', hx1, hne, if_false, alarm_insert_test_eq, hs2',
        Option.map_some']
    obtain ⟨yn2, hy2, _⟩ := heap_some_of_same hd2 hy
    have hl2' : list_nodes { s2 with pc := Pc.top, current_alarm := 0 } =
        some (y :: ins s.heap x l) := hl2
    obtain ⟨_, ⟨s3, hs3, hl3, _, hheap, h1, h2⟩⟩ :=
      take_spec { s2 with pc := Pc.top, current_alarm := 0 } y yn2 (ins s.heap x l) now hl2'
        (by intro p hp; show p < s2.brk; rw [hbrk2]; exact hb2 p hp) hy2
    have hrun : alarm_thread_run_test now { s2 with pc := Pc.top } = some s3 := by
      have hhead : ({ s2 with pc := Pc.top } : State).alarm_list = some y :=
        (list_nodes_cons hl2).1
      rw [alarm_thread_run_test_top now { s2 with pc := Pc.top } y rfl hhead]
      exact hs3
    exact ⟨s1, _, s3, hs1, hsig, hwake, hl2, hrun,
      outcome_of_take s s2 s3 x y yn yn2 l now hy hy2 hd2 hsorted (hout2.trans hout1) hl3
        hheap h1 h2⟩

theorem C9_witness :
    (sample_waiting.remove_alarm ≠ some 0 →
      ∃ s1 s2 s3, alarm_insert 2 sample_waiting = some s1 ∧
        s1.signals = sample_waiting.signals + 1 ∧
        alarm_thread_wake 0 s1 = some s2 ∧
        list_nodes s2 = some (2 :: ins sample_waiting.heap 0 [1]) ∧
        alarm_thread_run 0 s2 = some s3 ∧
        wake_on_earlier_outcome sample_waiting s3 0 2 ⟨none, 50, 50, 2, "y"⟩ [1] 0) ∧
    (∃ s1 s2 s3, alarm_insert_test 2 sample_waiting = some s1 ∧
        s1.signals = sample_waiting.signals + 1 ∧
        alarm_thread_wake_test 0 s1 = some s2 ∧
        list_nodes s2 = some (2 :: ins sample_waiting.heap 0 [1]) ∧
        alarm_thread_run_test 0 s2 = some s3 ∧
        wake_on_earlier_outcome sample_waiting s3 0 2 ⟨none, 50, 50, 2, "y"⟩ [1] 0) :=
  C9_wake_on_earlier sample_waiting 0 2 ⟨none, 100, 100, 1, "x"⟩ ⟨none, 50, 50, 2, "y"⟩ [1] 0 0
    rfl rfl rfl rfl (by decide) (by decide) (by decide) (by decide) (by decide) (by decide)
    (by decide) (by decide) (by decide) (by decide)

/-- C9 as stated fails in the Most Recent Update variant.  The thread waits on
the alarm at address 0 (Message_Number 1, deadline 100) with `current_alarm =
100`; a submission with the same Message_Number has made it `remove_alarm`.
Then `main` inserts with `alarm_insert` the alarm at address 2 (deadline 10):
after the wake and the next iteration the thread waits on that alarm and the
list is empty, so the alarm it held before is not back on `alarm_list`. -/
theorem C9_counterexample :
    (exec [Event.run 0, Event.line (Command.set 100 1 "x") 0, Event.wake 0,
        Event.line (Command.set 50 1 "z") 0] init).map
      (fun s => (s.pc, s.current_alarm, time_of s.heap 0, s.remove_alarm, list_nodes s)) =
      some (Pc.timedwait 0, 100, 100, some 0, some []) ∧
    (exec [Event.run 0, Event.line (Command.set 100 1 "x") 0, Event.wake 0,
        Event.line (Command.set 50 1 "z") 0, Event.line (Command.set 10 2 "y") 0] init).map
      (fun s => (s.pc, s.current_alarm, s.signals, list_nodes s)) =
      some (Pc.timedwait 0, 10, 2, some [2]) ∧
    (exec [Event.run 0, Event.line (Command.set 100 1 "x") 0, Event.wake 0,
        Event.line (Command.set 50 1 "z") 0, Event.line (Command.set 10 2 "y") 0,
        Event.wake 0, Event.run 0] init).map
      (fun s => (s.pc, list_nodes s)) = some (Pc.timedwait 2, some []) :=
  ⟨rfl, rfl, rfl⟩

/-! ## Runs of `main` and the alarm thread that break the replacement and
cancel claims -/

/-- C6, the code at a failing input: the thread takes the alarm of the line
`10 Message(1) a`; the lines `20 Message(2) b` and `30 Message(2) c` follow.
At the end of the last submission `alarm_list` holds two alarms with
Message_Number 2: the search starts from the global `temp`, which is `NULL`,
so the alarm already queued is never looked at. -/
theorem C6_two_alarms_same_number :
    (exec [Event.run 0, Event.line (Command.set 10 1 "a") 0, Event.wake 0,
        Event.line (Command.set 20 2 "b") 0, Event.line (Command.set 30 2 "c") 0] init).bind
      list_fields = some [(20, 20, 2, "b"), (30, 30, 2, "c")] := by
  decide

/-- C7, the code at failing inputs.  (1) The sorted list holds only the alarm
with Message_Number 1 and deadline 100, `temp` points to it; the line
`70 Message(1) x2` leaves the list as it was and the new alarm is on no list.
(2) The list holds only the alarm with Message_Number 2 and `temp` is `NULL`;
the line `30 Message(2) c` adds a second alarm with that number.  (3) The
match is the head of a list of two: the run ends in `free (alarm_thread)`. -/
theorem C7_replacement_fails :
    (exec [Event.run 0, Event.line (Command.set 100 1 "x") 0, Event.wake 0,
        Event.line (Command.set 50 2 "a") 0, Event.wake 0, Event.run 0] init).bind
      (fun s => (list_fields s).map (fun l => (l, s.temp, s.alarm_list))) =
      some ([(100, 100, 1, "x")], some 0, some 0) ∧
    (exec [Event.run 0, Event.line (Command.set 100 1 "x") 0, Event.wake 0,
        Event.line (Command.set 50 2 "a") 0, Event.wake 0, Event.run 0,
        Event.line (Command.set 70 1 "x2") 0] init).bind list_fields =
      some [(100, 100, 1, "x")] ∧
    (exec [Event.run 0, Event.line (Command.set 10 1 "a") 0, Event.wake 0,
        Event.line (Command.set 20 2 "b") 0] init).bind
      (fun s => (list_fields s).map (fun l => (l, s.temp))) =
      some ([(20, 20, 2, "b")], none) ∧
    (exec [Event.run 0, Event.line (Command.set 10 1 "a") 0, Event.wake 0,
        Event.line (Command.set 20 2 "b") 0, Event.line (Command.set 30 2 "c") 0] init).bind
      list_fields = some [(20, 20, 2, "b"), (30, 30, 2, "c")] ∧
    (exec [Event.run 0, Event.line (Command.set 100 1 "x") 0, Event.wake 0,
        Event.line (Command.set 200 3 "b") 0, Event.line (Command.set 50 2 "a") 0,
        Event.wake 0, Event.run 0] init).bind
      (fun s => (list_fields s).map (fun l => (l, s.temp, s.alarm_list))) =
      some ([(100, 100, 1, "x"), (200, 200, 3, "b")], some 0, some 0) ∧
    (exec [Event.run 0, Event.line (Command.set 100 1 "x") 0, Event.wake 0,
        Event.line (Command.set 200 3 "b") 0, Event.line (Command.set 50 2 "a") 0,
        Event.wake 0, Event.run 0, Event.line (Command.set 70 1 "x2") 0] init).isNone = true :=
  ⟨rfl, rfl, rfl, rfl, rfl, rfl⟩

/-- C8, the code at the failing input: `5 Message(1) first` is submitted and
taken by the thread, then `1 Message(1) second` is submitted.  The new alarm is
put on no list and nothing is signalled; at the deadline of the first alarm
the thread prints the first message, and then the list is empty and the thread
waits for work: the second message is never printed. -/
theorem C8_stale_alarm_delivered :
    (exec [Event.run 0, Event.line (Command.set 5 1 "first") 0, Event.wake 0,
        Event.line (Command.set 1 1 "second") 0] init).map
      (fun s => (s.pc, s.alarm_list, s.signals, s.output)) =
      some (Pc.timedwait 0, none, 1, []) ∧
    (exec [Event.run 0, Event.line (Command.set 5 1 "first") 0, Event.wake 0,
        Event.line (Command.set 1 1 "second") 0, Event.timeout 5, Event.run 5] init).map
      (fun s => (s.pc, s.alarm_list, s.output)) =
      some (Pc.cond_wait, none, [(5, 1, "first")]) :=
  ⟨rfl, rfl⟩

/-- C10, the code at the failing input: `5 Message(1) x` is submitted and at
once cancelled with `Cancel: Message(1)`, before the thread takes the alarm or
after it.  The alarm stays where it is, and at its deadline the thread prints
it. -/
theorem C10_cancel_removes_nothing :
    (exec [Event.run 0, Event.line (Command.set 5 1 "x") 0,
        Event.line (Command.cancel 1) 0] init).bind list_fields = some [(5, 5, 1, "x")] ∧
    (exec [Event.run 0, Event.line (Command.set 5 1 "x") 0,
        Event.line (Command.cancel 1) 0, Event.wake 0, Event.timeout 5] init).map
      (fun s => s.output) = some [(5, 1, "x")] ∧
    (exec [Event.run 0, Event.line (Command.set 5 1 "x") 0, Event.wake 0,
        Event.line (Command.cancel 1) 0, Event.timeout 5] init).map
      (fun s => s.output) = some [(5, 1, "x")] := by
  decide

/-! ## The invariant behind the wake protocol -/

theorem least_le (t : Int) : ∀ ts : List Int, least t ts ≤ t := by
  intro ts
  induction ts with
  | nil => exact le_refl _
  | cons u ts ih => exact le_trans (min_le_right _ _) ih

theorem least_of_le (t : Int) : ∀ ts : List Int, (∀ u ∈ ts, t ≤ u) → least t ts = t := by
  intro ts
  induction ts with
  | nil => intro _; rfl
  | cons u ts ih =>
    intro h
    show min u (least t ts) = t
    rw [ih (fun v hv => h v (List.mem_cons_of_mem _ hv))]
    exact min_eq_right (h u (List.mem_cons_self _ _))

theorem least_ins (t : Int) (h : Nat → Option alarm_t) (a : Nat) : ∀ l : List Nat,
    least t ((ins h a l).map (time_of h)) = min (least t (l.map (time_of h))) (time_of h a) := by
  intro l
  induction l with
  | nil => exact min_comm _ _
  | cons n l ih =>
    by_cases ht : time_of h n ≥ time_of h a
    · simp only [ins, ht, if_true]
      exact min_comm _ _
    · simp only [ins, ht, if_false]
      show min (time_of h n) (least t ((ins h a l).map (time_of h))) =
        min (min (time_of h n) (least t (l.map (time_of h)))) (time_of h a)
      rw [ih, min_assoc]

/-- One allocation followed by `alarm_insert` on a well-formed list. -/
theorem insert_new_spec (s : State) (l : List Nat) (sec tm num : Int) (msg : String)
    (hl : list_nodes s = some l) (hb : ∀ p ∈ l, p < s.brk) :
    ∃ s1 l1, list_nodes s1 = some l1 ∧ (∀ p ∈ l1, p < s1.brk) ∧ s1.pc = s.pc ∧
      (∀ t, least t (l1.map (time_of s1.heap)) = min (least t (l.map (time_of s.heap))) tm) ∧
      alarm_insert (new_alarm sec tm num msg s).1 (new_alarm sec tm num msg s).2 = some
        (if s.current_alarm = 0 ∨ tm < s.current_alarm then
          { s1 with current_alarm := tm, signals := s.signals + 1 }
        else s1) ∧
      s1.current_alarm = s.current_alarm ∧ s1.signals = s.signals := by
  have hfresh : ∀ p ∈ l, p ≠ s.brk := fun p hp => Nat.ne_of_lt (hb p hp)
  have hc := chain_of_nodes_from _ _ _ _ hl
  have hold : ∀ q ∈ l, (new_alarm sec tm num msg s).2.heap q = s.heap q := by
    intro q hq
    simp [new_alarm, hfresh q hq]
  have hc0 : chain (new_alarm sec tm num msg s).2.heap s.alarm_list l :=
    chain_congr l _ hold hc
  have hlen := length_le_of_lt (chain_nodup _ _ hc) hb
  have hl0 : list_nodes (new_alarm sec tm num msg s).2 = some l :=
    nodes_from_of_chain _ _ _ _ hc0 (by simp [new_alarm]; omega)
  have hb0 : ∀ p ∈ l, p < (new_alarm sec tm num msg s).2.brk := by
    intro p hp
    have := hb p hp
    simp [new_alarm]
    omega
  have ha0 : (new_alarm sec tm num msg s).2.heap s.brk = some ⟨none, sec, tm, num, msg⟩ := by
    simp [new_alarm]
  have hal0 : s.brk ∉ l := fun h => hfresh _ h rfl
  obtain ⟨s1, hsd, hl1, hs1⟩ := alarm_insert_spec _ s.brk _ l hl0 hb0 ha0 hal0
  have hperm := ins_perm (new_alarm sec tm num msg s).2.heap s.brk l
  refine ⟨s1, _, hl1, ?_, hsd.2.2.2.2.2.2.1, ?_, hs1, hsd.2.1, hsd.2.2.2.2.2.2.2.1⟩
  · intro p hp
    rw [hsd.1]
    rcases List.mem_cons.mp (hperm.subset hp) with rfl | hp
    · simp [new_alarm]
    · exact hb0 p hp
  · intro t
    have h1 : time_of s1.heap = time_of (new_alarm sec tm num msg s).2.heap :=
      funext (time_of_same hsd.2.2.2.2.2.2.2.2.2)
    have h2 : l.map (time_of (new_alarm sec tm num msg s).2.heap) = l.map (time_of s.heap) :=
      List.map_congr_left (fun q hq => by simp [time_of, hold q hq])
    have h3 : time_of (new_alarm sec tm num msg s).2.heap s.brk = tm := by
      simp [time_of, ha0]
    rw [h1, least_ins, h2, h3]

/-- The invariant of the wake protocol is kept by every further allocation and
`alarm_insert`: `current_alarm` is the least deadline among `t0` and the list,
and a signal has been sent since the count `k0` exactly when that least
deadline is below `t0`. -/
theorem insert_all_least (t0 : Int) (k0 : Nat) :
    ∀ (xs : List (Int × Int × Int × String)) (s : State) (l : List Nat),
    list_nodes s = some l → (∀ p ∈ l, p < s.brk) →
    s.current_alarm = least t0 (l.map (time_of s.heap)) → s.current_alarm ≠ 0 →
    (∀ x ∈ xs, x.2.1 ≠ 0) → k0 ≤ s.signals → (k0 < s.signals ↔ s.current_alarm < t0) →
    ∃ s' l', insert_all xs s = some s' ∧ list_nodes s' = some l' ∧ s'.pc = s.pc ∧
      s'.current_alarm = least t0 (l'.map (time_of s'.heap)) ∧
      (k0 < s'.signals ↔ s'.current_alarm < t0) := by
  intro xs
  induction xs with
  | nil =>
    intro s l hl _ hcur _ _ _ hsig
    exact ⟨s, l, rfl, hl, rfl, hcur, hsig⟩
  | cons x xs ih =>
    intro s l hl hb hcur hne hxs hk hsig
    obtain ⟨sec, tm, num, msg⟩ := x
    have htm : tm ≠ 0 := hxs (sec, tm, num, msg) (List.mem_cons_self _ _)
    have hxs' : ∀ x ∈ xs, x.2.1 ≠ 0 := fun x hx => hxs x (List.mem_cons_of_mem _ hx)
    obtain ⟨s1, l1, hl1, hb1, hpc1, hleast, hins, hc1, hsg1⟩ :=
      insert_new_spec s l sec tm num msg hl hb
    have hle : s.current_alarm ≤ t0 := by rw [hcur]; exact least_le _ _
    by_cases hlt : tm < s.current_alarm
    · rw [if_pos (Or.inr hlt)] at hins
      obtain ⟨s', l', hs', hl', hpc', hcur', hsig'⟩ :=
        ih { s1 with current_alarm := tm, signals := s.signals + 1 } l1 hl1 hb1
          (by
            show tm = least t0 (l1.map (time_of s1.heap))
            rw [hleast, ← hcur, min_eq_right (le_of_lt hlt)])
          htm hxs' (Nat.le_succ_of_le hk)
          (by
            show k0 < s.signals + 1 ↔ tm < t0
            exact ⟨fun _ => lt_of_lt_of_le hlt hle, fun _ => Nat.lt_succ_of_le hk⟩)
      refine ⟨s', l', ?_, hl', hpc'.trans hpc1, hcur', hsig'⟩
      simp only [insert_all]
      rw [hins]
      exact hs'
    · have hcond : ¬ (s.current_alarm = 0 ∨ tm < s.current_alarm) := by
        intro h
        rcases h with h | h
        · exact hne h
        · exact hlt h
      rw [if_neg hcond] at hins
      obtain ⟨s', l', hs', hl', hpc', hcur', hsig'⟩ :=
        ih s1 l1 hl1 hb1
          (by rw [hc1, hleast, ← hcur, min_eq_left (not_lt.mp hlt)])
          (by rw [hc1]; exact hne) hxs' (by rw [hsg1]; exact hk)
          (by rw [hsg1, hc1]; exact hsig)
      refine ⟨s', l', ?_, hl', hpc'.trans hpc1, hcur', hsig'⟩
      simp only [insert_all]
      rw [hins]
      exact hs'

/-- C11: the alarm thread takes the alarm `x` from the head of a well-formed
sorted `alarm_list`, finds it not yet due at `now` and enters its timed wait
with `current_alarm = x->time`; `main` then allocates and inserts with
`alarm_insert` the alarms `xs`, all deadlines being non-zero.  After every one
of those calls (after the first `k` of them, for every `k`) the calls have
returned, the thread still waits on `x`, `current_alarm` is the minimum of
`x->time` and the deadlines of all alarms on `alarm_list`, and `alarm_cond` has
been signalled since the wait began if and only if that minimum is strictly
less than `x->time`. -/
theorem C11_wake_invariant (s0 : State) (x : Nat) (xn : alarm_t) (l : List Nat) (now : Int)
    (xs : List (Int × Int × Int × String)) (k : Nat)
    (hl : list_nodes s0 = some (x :: l)) (hb : ∀ p ∈ x :: l, p < s0.brk)
    (hx : s0.heap x = some xn)
    (hsorted : ((x :: l).map (time_of s0.heap)).Sorted (· ≤ ·))
    (hdue : xn.time > now) (hx0 : xn.time ≠ 0) (hxs : ∀ y ∈ xs, y.2.1 ≠ 0) :
    ∃ s s' l', alarm_thread_take now s0 = some s ∧ s.pc = Pc.timedwait x ∧
      s.current_alarm = xn.time ∧
      insert_all (xs.take k) s = some s' ∧ list_nodes s' = some l' ∧
      s'.pc = Pc.timedwait x ∧
      s'.current_alarm = least xn.time (l'.map (time_of s'.heap)) ∧
      (s.signals < s'.signals ↔ least xn.time (l'.map (time_of s'.heap)) < xn.time) := by
  obtain ⟨⟨s, hs, hls, hbrk, hheap, hwait, _⟩, _⟩ := take_spec s0 x xn l now hl hb hx
  obtain ⟨hpc, hcur, _⟩ := hwait hdue
  have hbs : ∀ p ∈ l, p < s.brk := by
    intro p hp
    rw [hbrk]
    exact hb p (List.mem_cons_of_mem _ hp)
  have htimes : l.map (time_of s.heap) = l.map (time_of s0.heap) :=
    List.map_congr_left (fun q hq => by simp [time_of, hheap q hq])
  have htx : time_of s0.heap x = xn.time := by simp [time_of, hx]
  rw [List.map_cons, List.sorted_cons, htx] at hsorted
  have hinit : s.current_alarm = least xn.time (l.map (time_of s.heap)) := by
    rw [hcur, htimes, least_of_le _ _ hsorted.1]
  obtain ⟨s', l', hs', hl', hpc', hcur', hsig'⟩ :=
    insert_all_least xn.time s.signals (xs.take k) s l hls hbs hinit
      (by rw [hcur]; exact hx0) (fun y hy => hxs y (List.mem_of_mem_take hy)) (le_refl _)
      (by rw [hcur]; simp)
  refine ⟨s, s', l', hs, hpc, hcur, hs', hl', hpc'.trans hpc, hcur', ?_⟩
  rw [← hcur']
  exact hsig'

theorem C11_witness :
    ∃ s s' l', alarm_thread_take 0 sample_sorted = some s ∧ s.pc = Pc.timedwait 0 ∧
      s.current_alarm = 100 ∧
      insert_all (sample_inserts.take 2) s = some s' ∧ list_nodes s' = some l' ∧
      s'.pc = Pc.timedwait 0 ∧
      s'.current_alarm = least 100 (l'.map (time_of s'.heap)) ∧
      (s.signals < s'.signals ↔ least 100 (l'.map (time_of s'.heap)) < 100) :=
  C11_wake_invariant sample_sorted 0 ⟨some 1, 100, 100, 1, "x"⟩ [1] 0 sample_inserts 2
    (by decide) (by decide) rfl (by decide) (by decide) (by decide) (by decide)

end AlarmCond
